import Mathlib

/-!
# File registry of `gofilesharing`: a shallow embedding

The development follows `internal/registry`:

* `domain/file.go`, `domain/errors.go`   : `File`, `Err`
* `repository/sqlite_repo.go`            : `FileRepo.Insert`, `FileRepo.Get`,
                                           `FileRepo.Delete`, `FileRepo.ClearExpired`
* `service/service.go`                   : `charset`, `generateId`,
                                           `FileService.Upload`, `FileService.Get`

Conventions of the embedding.

* A `time.Time` is an instant, counted in nanoseconds since the Unix epoch,
  together with the `*time.Location` it is to be shown in; in `File` these are
  the fields `CreatedAt` and `CreatedAtLoc`. Every `time.Now()` of the source,
  and every evaluation of `DATETIME('now', 'localtime')`, is an explicit
  argument of the embedded function.
* The table `files` is the list of its rows. A `DATETIME` or `TIMESTAMP` cell
  holds the text that the driver writes for a `time.Time`: the wall-clock
  reading in the location of the value, followed by the offset from UTC. It is
  kept as the instant and the offset. Reading it back parses the text into
  the instant; the sweep compares the text with the text of SQLite's local
  time.
* `INSERT`, the point `SELECT` and the point `DELETE` are given their SQL
  meaning, the only rejection being an `INSERT` that breaks the `PRIMARY KEY`
  constraint on `id`; the database calls of the sweep can fail as a
  `SweepFault` says.
* The process-wide random source of `math/rand` is a stream of draws with a
  cursor; `rand.Intn n` is the next draw reduced modulo `n`.
* The directory tree is a finite map from cleaned slash-separated paths to
  nodes (regular file, directory, symbolic link); `os.MkdirAll`, `os.Rename`
  and `os.Remove` follow the Go standard library on a Unix system.
* Logging has no effect on the state and is left out.
-/

namespace Registry

/-! ## Time -/

/-- An instant: nanoseconds since the Unix epoch. -/
abbrev Time := Nat

/-- The constant `time.Second`, in nanoseconds. -/
def second : Nat := 1000000000

/-- The constant `time.Hour`, in nanoseconds. -/
def hour : Nat := 3600 * second

/-- The method `Time.Add`. -/
def Time.Add (t : Time) (d : Nat) : Time := t + d

/-- The method `Time.After`: strictly later. -/
def Time.After (t u : Time) : Bool := decide (u < t)

/-- The method `Time.Unix`: whole seconds since the epoch. -/
def Time.Unix (t : Time) : Nat := t / second

/-- The instant cut down to its whole second (`Time.Truncate(time.Second)`). -/
def Time.wholeSecond (t : Time) : Time := (t / second) * second

/-! ## Time zones -/

/-- A time zone (`*time.Location`): the offset east of UTC, in seconds, in
force at each instant. `base` is in force before the first transition; a
transition gives an instant and the offset in force from then on, the
transitions being listed in increasing order of their instants. -/
structure Location where
  base : Int
  transitions : List (Time × Int)
deriving DecidableEq, Repr

/-- The offset east of UTC, in seconds, in force at the instant `t`. -/
def Location.offsetAt (loc : Location) (t : Time) : Int :=
  loc.transitions.foldl (fun off tr => if tr.1 ≤ t then tr.2 else off) loc.base

/-- The location `time.UTC`. -/
def utc : Location := { base := 0, transitions := [] }

/-- The location `time.FixedZone`, with the given offset at every instant. -/
def fixedZone (offset : Int) : Location := { base := offset, transitions := [] }

/-- The wall-clock second, counted from the epoch, shown by the timestamp
text `YYYY-MM-DD HH:MM:SS...` of the instant `t` written with the offset
`off`. Two such texts (years 0000 to 9999) compare in their first 19
characters as their wall-clock seconds do. -/
def wallSecond (t : Time) (off : Int) : Int := (Time.Unix t : Int) + off

/-- The SQL expression `DATETIME('now', 'localtime')` evaluated when the clock
reads `t`, in a process whose local time zone is `zone`: the text
`YYYY-MM-DD HH:MM:SS` of the local wall-clock reading, with a resolution of
one second, given by its wall-clock second. -/
def sqlDatetimeNow (zone : Location) (t : Time) : Int := wallSecond t (zone.offsetAt t)

/-! ## Domain (`domain/file.go`, `domain/errors.go`) -/

/-- The struct `domain.File`; `Size` is an `int64` that is only stored and
read back. The `time.Time` of the field `CreatedAt` is the instant `CreatedAt`
and the location `CreatedAtLoc`, which is UTC unless said otherwise. -/
structure File where
  ID : String
  OriginalName : String
  StoragePath : String
  Size : Int
  ContentType : String
  CreatedAt : Time
  CreatedAtLoc : Location := utc
deriving DecidableEq, Repr

/-- Error numbers returned by the file-system calls. -/
inductive Errno where
  | ENOENT
  | EEXIST
  | ENOTDIR
  | ENOTEMPTY
  | EINVAL
deriving DecidableEq, Repr

/-- Error values: the four sentinels of `domain/errors.go`, the constraint
error of the SQLite driver, path errors of package `os`, and any other error
of the database driver. -/
inductive Err where
  | ErrNotFound
  | ErrExpired
  | ErrInRepo
  | ErrInService
  | constraint
  | pathError (e : Errno)
  | driver
deriving DecidableEq, Repr

deriving instance DecidableEq for Except

/-! ## Identifier generator (`service.go`, lines 38-51) -/

/-- The constant `charset`. -/
def charset : String := "abcdefghijklmnopqrstuvwxyzABCDEFGHIJKLMNOPQRSTUVWXYZ0123456789"

/-- The random source: the stream of raw draws and the number of draws already
taken. -/
structure Rand where
  draws : Nat → Nat
  pos : Nat

/-- The call `rand.Intn(n)` for `0 < n`: a value below `n`, and the advanced
source. -/
def Rand.Intn (r : Rand) (n : Nat) : Nat × Rand :=
  (r.draws r.pos % n, { r with pos := r.pos + 1 })

/-- The byte `charset[i]`; the index `rand.Intn(len(charset))` is always in
range. -/
def charsetAt (i : Nat) : Char := charset.data.getD i 'a'

/-- The loop of `generateId`: `length` times, append
`charset[rand.Intn(len(charset))]` to the builder `b`. -/
def generateIdLoop : Nat → List Char → Rand → List Char × Rand
  | 0, b, r => (b, r)
  | k + 1, b, r =>
    let (i, r1) := r.Intn charset.length
    generateIdLoop k (b ++ [charsetAt i]) r1

/-- The function `generateId(length)`. -/
def generateId (r : Rand) (length : Nat) : String × Rand :=
  let (b, r1) := generateIdLoop length [] r
  (String.mk b, r1)

/-! ## Persistence store (`sqlite_repo.go`) -/

/-- One row of the table `files` created by `NewFileRepo`. The cells
`created_at` and `expired_at` hold timestamp texts: `created_at` and
`expired_at` are the instants they denote, `created_off` and `expired_off`
the offsets from UTC, in seconds, they are written with (`0` unless said
otherwise). -/
structure Row where
  id : String
  original_name : String
  storage_path : String
  size_bytes : Int
  content_type : String
  created_at : Time
  expired_at : Time
  created_off : Int := 0
  expired_off : Int := 0
deriving DecidableEq, Repr

/-- The table `files`, in insertion order. -/
abbrev DB := List Row

/-- The identifiers stored in the table. -/
def DB.ids (db : DB) : List String := db.map Row.id

/-- The row written by `FileRepo.Insert` for `file`: `file.CreatedAt` and
`file.CreatedAt.Add(48*time.Hour)`, each written with the offset that the
location of `file.CreatedAt` has at that instant. -/
def Row.ofFile (file : File) : Row :=
  { id := file.ID
    original_name := file.OriginalName
    storage_path := file.StoragePath
    size_bytes := file.Size
    content_type := file.ContentType
    created_at := file.CreatedAt
    expired_at := Time.Add file.CreatedAt (48 * hour)
    created_off := file.CreatedAtLoc.offsetAt file.CreatedAt
    expired_off := file.CreatedAtLoc.offsetAt (Time.Add file.CreatedAt (48 * hour)) }

/-- The method `FileRepo.Insert`: the `INSERT` is rejected when a row with the
same `id` (the primary key) is stored, and otherwise adds the row. -/
def FileRepo.Insert (db : DB) (file : File) : Except Err DB :=
  if db.any (fun r => r.id == file.ID) then .error .constraint
  else .ok (db ++ [Row.ofFile file])

/-- The `domain.File` scanned from a row by `FileRepo.Get` (the column
`expired_at` is scanned into a local variable); the parsed `created_at` is
the instant of the text, in the zone of the offset of the text. -/
def Row.toFile (r : Row) : File :=
  { ID := r.id
    OriginalName := r.original_name
    StoragePath := r.storage_path
    Size := r.size_bytes
    ContentType := r.content_type
    CreatedAt := r.created_at
    CreatedAtLoc := fixedZone r.created_off }

/-- The method `FileRepo.Get`, with `now` the value of `time.Now()`: no row
is `ErrNotFound`, a row whose `expired_at` lies before `now` is `ErrExpired`,
any other row is returned. -/
def FileRepo.Get (db : DB) (now : Time) (shortName : String) : Except Err File :=
  match db.find? (fun r => r.id == shortName) with
  | none => .error .ErrNotFound
  | some r =>
    if Time.After now r.expired_at then .error .ErrExpired
    else .ok r.toFile

/-- The method `FileRepo.Delete`: `DELETE FROM files WHERE id = ?`. -/
def FileRepo.Delete (db : DB) (id : String) : Except Err DB :=
  .ok (db.filter (fun r => !(r.id == id)))

/-! ## Paths (`path/filepath`, Unix) -/

/-- Split a path at every separator `/`. -/
def splitSlash : List Char → List (List Char)
  | [] => [[]]
  | c :: cs =>
    match splitSlash cs with
    | [] => [[c]]
    | h :: t => if c = '/' then [] :: h :: t else (c :: h) :: t

/-- One step of `filepath.Clean` over the path elements, `out` being the
stack of elements kept so far (innermost first): empty elements and `.` are
dropped, `..` removes the element before it when there is one that is not
`..` itself, is dropped at the root and is kept otherwise. -/
def cleanStep (rooted : Bool) (out : List (List Char)) (c : List Char) : List (List Char) :=
  if c = [] ∨ c = ['.'] then out
  else if c = ['.', '.'] then
    match out with
    | [] => if rooted then [] else [c]
    | top :: rest => if top = ['.', '.'] then c :: out else rest
  else c :: out

/-- Join path elements with `/`. -/
def joinSlash : List (List Char) → List Char
  | [] => []
  | [c] => c
  | c :: d :: rest => c ++ '/' :: joinSlash (d :: rest)

/-- The function `filepath.Clean`. -/
def filepathClean (path : String) : String :=
  if path = "" then "."
  else
    let rooted := path.data.head? = some '/'
    let body := joinSlash ((splitSlash path.data).foldl (cleanStep rooted) []).reverse
    if rooted then String.mk ('/' :: body)
    else if body = [] then "."
    else String.mk body

/-- The call `filepath.Join(a, b)`: leading empty elements are skipped, the
remaining ones are joined with `/`, and the result is cleaned. -/
def filepathJoin (a b : String) : String :=
  if a ≠ "" then filepathClean (a ++ "/" ++ b)
  else if b ≠ "" then filepathClean b
  else ""

/-- Two stacks of path elements that `filepath.Clean` builds from the same
elements, one below `data/tmp` and one below `data/storage`: they are equal,
or they differ in that one element only and hold no `..` above it. -/
def sameAbove (s t : List (List Char)) : Prop :=
  s = t ∨ ∃ top : List (List Char),
    s = top ++ ["tmp".data, "data".data] ∧ t = top ++ ["storage".data, "data".data] ∧
    ∀ c ∈ top, c ≠ ['.', '.']

/-- The path and its ancestors, outermost first: every prefix of the path
that ends just before a separator, then the path itself. -/
def pathPrefixes : List Char → List Char → List (List Char)
  | acc, [] => [acc.reverse]
  | acc, c :: cs =>
    if c = '/' then acc.reverse :: pathPrefixes (c :: acc) cs
    else pathPrefixes (c :: acc) cs

/-- The proper ancestors of the path, innermost first; the empty prefix (the
root of a rooted path) is left out. -/
def parentsOf (path : String) : List String :=
  (((pathPrefixes [] path.data).dropLast.filter (fun p => !p.isEmpty)).reverse).map String.mk

/-! ## Directory tree (package `os`, Unix)

Paths handed to these functions are cleaned paths, as produced by
`filepath.Join`; the working directory and the root always exist. -/

/-- A node of the directory tree. A symbolic link records the cleaned path it
points to. -/
inductive Node where
  | file (content : List Nat)
  | dir
  | symlink (target : String)
deriving DecidableEq, Repr

/-- The directory tree: a finite map from paths to nodes. -/
abbrev FS := List (String × Node)

/-- The call `os.Lstat`: the node at the path, a final symbolic link not
followed. -/
def FS.lstat (fs : FS) (path : String) : Option Node := fs.lookup path

/-- Follow final symbolic links, at most `k` of them. -/
def FS.follow (fs : FS) : Nat → String → Option Node
  | 0, _ => none
  | k + 1, path =>
    match fs.lstat path with
    | some (.symlink target) => FS.follow fs k target
    | r => r

/-- The call `os.Stat`: the node at the path, final symbolic links followed
(the kernel gives up after 40 links). -/
def FS.stat (fs : FS) (path : String) : Option Node := fs.follow 41 path

/-- Whether some entry lies below the directory `path`. -/
def FS.hasChild (fs : FS) (path : String) : Bool :=
  fs.any (fun e => (path.data ++ ['/']).isPrefixOf e.1.data)

/-- The state of the directory that is to contain `path`: `none` when it is a
directory (the working directory and the root are), else the error of the
path lookup. -/
def FS.parentCheck (fs : FS) (path : String) : Option Errno :=
  match parentsOf path with
  | d :: _ =>
    match fs.stat d with
    | some .dir => none
    | some _ => some .ENOTDIR
    | none => some .ENOENT
  | [] => none

/-- The call `os.Mkdir`. -/
def Mkdir (fs : FS) (path : String) : Except Errno FS :=
  if path = "" then .error .ENOENT
  else
    match fs.parentCheck path with
    | some e => .error e
    | none =>
      match fs.lstat path with
      | some _ => .error .EEXIST
      | none => .ok (fs ++ [(path, .dir)])

/-- The recursion of `os.MkdirAll` along the path and its proper ancestors
(innermost first): a path that is a directory is fine, one that is something
else is `ENOTDIR`; otherwise the parent is made first, then `Mkdir` is called,
and its error is dropped when the path turns out to be a directory. The
function returns the error, if any, and the tree it leaves behind. -/
def MkdirAllRec : List String → FS → Option Errno × FS
  | [], fs => (none, fs)
  | path :: parents, fs =>
    match fs.stat path with
    | some .dir => (none, fs)
    | some _ => (some .ENOTDIR, fs)
    | none =>
      match MkdirAllRec parents fs with
      | (some e, fs1) => (some e, fs1)
      | (none, fs1) =>
        match Mkdir fs1 path with
        | .ok fs2 => (none, fs2)
        | .error e =>
          match fs1.lstat path with
          | some .dir => (none, fs1)
          | _ => (some e, fs1)

/-- The call `os.MkdirAll(path, 0755)`. -/
def MkdirAll (fs : FS) (path : String) : Option Errno × FS :=
  MkdirAllRec (path :: parentsOf path) fs

/-- Move the key `k` along with a directory renamed from `old` to `new`. -/
def moveKey (old new k : String) : String :=
  if k = old then new
  else if (old.data ++ ['/']).isPrefixOf k.data then
    String.mk (new.data ++ k.data.drop old.data.length)
  else k

/-- The system call `rename(2)` when the new path is not a directory. -/
def sysRename (fs : FS) (oldname newname : String) : Except Errno FS :=
  match fs.lstat oldname with
  | none => .error .ENOENT
  | some n =>
    match fs.parentCheck newname with
    | some e => .error e
    | none =>
      if oldname = newname then .ok fs
      else
        match n with
        | .dir =>
          if (fs.lstat newname).isSome then .error .ENOTDIR
          else if (oldname.data ++ ['/']).isPrefixOf newname.data then .error .EINVAL
          else .ok (fs.map (fun e => (moveKey oldname newname e.1, e.2)))
        | _ =>
          .ok ((fs.filter (fun e => !(e.1 == oldname) && !(e.1 == newname))) ++ [(newname, n)])

/-- The call `os.Rename`: when the new path is a directory the call fails
before the system call is made (with the error of `Lstat` on the old path,
else `EEXIST`); otherwise it is `rename(2)`. -/
def Rename (fs : FS) (oldname newname : String) : Except Errno FS :=
  match fs.lstat newname with
  | some .dir =>
    match fs.lstat oldname with
    | none => .error .ENOENT
    | some _ => .error .EEXIST
  | _ => sysRename fs oldname newname

/-- The call `os.Remove`: unlinks a file or link, removes an empty
directory. -/
def Remove (fs : FS) (path : String) : Except Errno FS :=
  match fs.lstat path with
  | none => .error .ENOENT
  | some .dir =>
    if fs.hasChild path then .error .ENOTEMPTY
    else .ok (fs.filter (fun e => !(e.1 == path)))
  | some _ => .ok (fs.filter (fun e => !(e.1 == path)))

/-! ## The sweep (`sqlite_repo.go`, lines 102-128) -/

/-- The statement `_ = os.Remove(path)`: the error is dropped. -/
def removeIgnoringError (fs : FS) (path : String) : FS :=
  match Remove fs path with
  | .ok fs1 => fs1
  | .error _ => fs

/-- The rows matched by `WHERE expired_at < DATETIME('now', 'localtime')` when
the clock reads `t` and the local time zone is `zone`. Both sides are texts
and are compared as texts: the stored `expired_at`, which is longer than the
19 characters of the right-hand side, is the smaller one exactly when its
wall-clock second is the earlier one. -/
def Row.expiredAt (zone : Location) (t : Time) (r : Row) : Bool :=
  decide (wallSecond r.expired_at r.expired_off < sqlDatetimeNow zone t)

/-- What goes wrong in the database calls of one `FileRepo.ClearExpired`:
nothing; `QueryContext` returns an error (lines 106-108); `rows.Scan` returns
an error on the row that follows `k` handled rows, if there is one (lines
113-115); the iteration ends after at most `k` rows and `rows.Err()` is not
`nil` (lines 121-123); `ExecContext` of the `DELETE` returns an error (lines
126-127), in which case no row is deleted. -/
inductive SweepFault where
  | none
  | query
  | scan (k : Nat)
  | rowsErr (k : Nat)
  | exec
deriving DecidableEq, Repr

/-- The method `FileRepo.ClearExpired` in a process whose local time zone is
`zone`. The `SELECT` is evaluated when the clock reads `tSelect`; every
selected `storage_path` is removed from the directory tree, errors dropped;
then the `DELETE` is evaluated when the clock reads `tDelete`. The result is
the returned error (`none` for `nil`), the directory tree and the table. -/
def FileRepo.ClearExpired (fs : FS) (db : DB) (zone : Location) (fault : SweepFault)
    (tSelect tDelete : Time) : Option Err × FS × DB :=
  let paths := (db.filter (Row.expiredAt zone tSelect)).map Row.storage_path
  match fault with
  | .query => (some .driver, fs, db)
  | .scan k =>
    if k < paths.length then (some .driver, (paths.take k).foldl removeIgnoringError fs, db)
    else (none, paths.foldl removeIgnoringError fs,
      db.filter (fun r => !(Row.expiredAt zone tDelete r)))
  | .rowsErr k => (some .driver, (paths.take k).foldl removeIgnoringError fs, db)
  | .exec => (some .driver, paths.foldl removeIgnoringError fs, db)
  | .none => (none, paths.foldl removeIgnoringError fs,
      db.filter (fun r => !(Row.expiredAt zone tDelete r)))

/-! ## Registry service (`service.go`) -/

/-- What the registry process acts on: the directory tree, the table `files`
and the random source; and the local time zone of the process, which is UTC
unless said otherwise. -/
structure World where
  fs : FS
  db : DB
  rand : Rand
  zone : Location := utc

/-- The method `FileService.Upload`, with `now` the instant of `time.Now()` at
line 77, a time in the local zone. It returns the identifier or the error,
and the world it leaves. -/
def FileService.Upload (w : World) (now : Time) (uuid name : String) (size : Int)
    (contentType : String) : Except Err String × World :=
  let (fileId, rand1) := generateId w.rand 5
  let storagePath := filepathJoin "data/storage" (uuid ++ ".dat")
  match MkdirAll w.fs storagePath with
  | (some e, fs1) => (.error (.pathError e), { w with fs := fs1, rand := rand1 })
  | (none, fs1) =>
    match Rename fs1 (filepathJoin "data/tmp" uuid) storagePath with
    | .error _ => (.error .ErrInService, { w with fs := fs1, rand := rand1 })
    | .ok fs2 =>
      let newFile : File :=
        { ID := fileId
          OriginalName := name
          StoragePath := storagePath
          Size := size
          ContentType := contentType
          CreatedAt := now
          CreatedAtLoc := w.zone }
      match FileRepo.Insert w.db newFile with
      | .error _ => (.error .ErrInRepo, { w with fs := fs2, rand := rand1 })
      | .ok db1 => (.ok fileId, { w with fs := fs2, db := db1, rand := rand1 })

/-- The method `FileService.Get`, with `now` the value of `time.Now()` inside
`FileRepo.Get`: `ErrNotFound` is passed on, every other error of the
repository becomes `ErrInRepo`. -/
def FileService.Get (w : World) (now : Time) (id : String) : Except Err File :=
  match FileRepo.Get w.db now id with
  | .error e => if e = .ErrNotFound then .error e else .error .ErrInRepo
  | .ok resFile => .ok resFile

/-! ## Sequences of registry operations -/

/-- One operation of the registry process, with the clock readings it sees:
`sweep` is a sweep whose database calls all go through, `sweepWith` a sweep
with the given fault. -/
inductive Op where
  | upload (now : Time) (uuid name : String) (size : Int) (contentType : String)
  | get (now : Time) (id : String)
  | delete (id : String)
  | sweep (tSelect tDelete : Time)
  | sweepWith (fault : SweepFault) (tSelect tDelete : Time)

/-- Run one operation; the second component is the identifier returned when
the operation is a successful `Upload`. -/
def step (w : World) : Op → World × Option String
  | .upload now uuid name size contentType =>
    match FileService.Upload w now uuid name size contentType with
    | (.ok id, w1) => (w1, some id)
    | (.error _, w1) => (w1, none)
  | .get _ _ => (w, none)
  | .delete id =>
    match FileRepo.Delete w.db id with
    | .ok db1 => ({ w with db := db1 }, none)
    | .error _ => (w, none)
  | .sweep tSelect tDelete =>
    let r := FileRepo.ClearExpired w.fs w.db w.zone .none tSelect tDelete
    ({ w with fs := r.2.1, db := r.2.2 }, none)
  | .sweepWith fault tSelect tDelete =>
    let r := FileRepo.ClearExpired w.fs w.db w.zone fault tSelect tDelete
    ({ w with fs := r.2.1, db := r.2.2 }, none)

/-- Run a sequence of operations; the second component lists the identifiers
returned by the successful `Upload` calls, in order. -/
def run (w : World) : List Op → World × List String
  | [] => (w, [])
  | op :: ops =>
    let (w1, r) := step w op
    let (w2, ids) := run w1 ops
    (w2, r.toList ++ ids)

/-! ## The alphabet, by classes -/

/-- The characters with codes `first`, ..., `first + count - 1`. -/
def charRange (first count : Nat) : List Char :=
  (List.range count).map (fun i => Char.ofNat (first + i))

/-- The 26 lowercase letters `a`..`z`. -/
def lowercaseLetters : List Char := charRange 97 26

/-- The 26 uppercase letters `A`..`Z`. -/
def uppercaseLetters : List Char := charRange 65 26

/-- The 10 digits `0`..`9`. -/
def digits : List Char := charRange 48 10

/-- Whether the operation can remove rows from the table. -/
def Op.removes : Op → Bool
  | .delete _ => true
  | .sweep _ _ => true
  | .sweepWith _ _ _ => true
  | _ => false

/-! ## Sample data -/

/-- A random source whose draws are all `0`: every identifier is `aaaaa`. -/
def zeroRand : Rand := { draws := fun _ => 0, pos := 0 }

/-- A file created at instant `0`. -/
def sampleFile : File :=
  { ID := "aaaaa"
    OriginalName := "report.pdf"
    StoragePath := "data/storage/tmp-a.dat"
    Size := 2048
    ContentType := "application/pdf"
    CreatedAt := 0 }

/-- The row that `FileRepo.Insert` writes for `sampleFile`. -/
def sampleRow : Row := Row.ofFile sampleFile

/-- The row of a file created two tenths of a second after instant `0`; its
`expired_at` is `48h` and `0.2s`. -/
def lateRow : Row := Row.ofFile { sampleFile with CreatedAt := 200000000 }

/-- A directory tree as the gateway leaves it: the staged upload `tmp-a`
below `data/tmp`, and an empty `data/storage`. -/
def plainTree : FS :=
  [("data", .dir), ("data/tmp", .dir), ("data/storage", .dir),
   ("data/tmp/tmp-a", .file [37, 80, 68, 70])]

/-- The time zone of Tokyo: nine hours east of UTC at every instant. -/
def tokyo : Location := fixedZone 32400

/-- A registry process whose local time zone is `tokyo`, holding the row of
`sampleFile`, which was stamped in UTC. -/
def tokyoWorld : World := { fs := [], db := [sampleRow], rand := zeroRand, zone := tokyo }

/-- A time zone with a fall-back of the clocks: two hours east of UTC until
the instant `50h`, one hour east of UTC from then on. -/
def fallBackZone : Location := { base := 7200, transitions := [(50 * hour, 3600)] }

/-- The row of a file created at `2h10m` by a process whose local time zone is
`fallBackZone`; its `expired_at` is `50h10m`, written with the offset of one
hour. -/
def fallBackRow : Row :=
  Row.ofFile { sampleFile with CreatedAt := 2 * hour + 600 * second
                               CreatedAtLoc := fallBackZone }

/-- The registry with the tree `plainTree` and an empty table. -/
def plainWorld : World := { fs := plainTree, db := [], rand := zeroRand }

/-- A directory tree with two staged uploads in which the storage paths of
both are already taken by symbolic links to a directory. -/
def linkedTree : FS :=
  [("data", .dir), ("data/tmp", .dir), ("data/storage", .dir),
   ("data/tmp/tmp-a", .file [37, 80, 68, 70]),
   ("data/tmp/tmp-b", .file [71, 73, 70]),
   ("data/storage/tmp-a.dat", .symlink "data/storage"),
   ("data/storage/tmp-b.dat", .symlink "data/storage")]

/-- The registry with the tree `linkedTree` and an empty table. -/
def linkedWorld : World := { fs := linkedTree, db := [], rand := zeroRand }

/-- A random source whose first five draws are `0` and whose later draws are
`1`: the identifiers `aaaaa`, then `bbbbb`. -/
def twoIdRand : Rand := { draws := fun i => if i < 5 then 0 else 1, pos := 0 }

/-- The registry with the tree `linkedTree`, the identifier `aaaaa` already
stored, and the random source `twoIdRand`. -/
def takenWorld : World := { fs := linkedTree, db := [sampleRow], rand := twoIdRand }

/-! # Theorems -/

/-! ## Identifier generator -/

theorem charset_length : charset.length = 62 := by decide

theorem charsetAt_mem (i : Nat) (h : i < 62) : charsetAt i ∈ charset.data := by
  unfold charsetAt
  have hlen : i < charset.data.length := by
    have : charset.data.length = 62 := by decide
    omega
  rw [List.getD_eq_getElem _ _ hlen]
  exact List.getElem_mem hlen

theorem generateIdLoop_spec (k : Nat) (b : List Char) (r : Rand) :
    ∃ l : List Char, (generateIdLoop k b r).1 = b ++ l ∧ l.length = k ∧
      (∀ c ∈ l, c ∈ charset.data) ∧
      (generateIdLoop k b r).2 = { r with pos := r.pos + k } := by
  induction k generalizing b r with
  | zero => exact ⟨[], by simp [generateIdLoop]⟩
  | succ k ih =>
    obtain ⟨l, h1, h2, h3, h4⟩ :=
      ih (b ++ [charsetAt (r.draws r.pos % charset.length)]) { r with pos := r.pos + 1 }
    refine ⟨charsetAt (r.draws r.pos % charset.length) :: l, ?_, ?_, ?_, ?_⟩
    · simp only [generateIdLoop, Rand.Intn]
      rw [h1]
      simp
    · simp [h2]
    · intro c hc
      rcases List.mem_cons.mp hc with rfl | hc
      · apply charsetAt_mem
        rw [charset_length]
        exact Nat.mod_lt _ (by decide)
      · exact h3 c hc
    · simp only [generateIdLoop, Rand.Intn]
      rw [h4]
      simp [Nat.add_assoc, Nat.add_comm 1 k]

/-- C8. For every length `n` and every outcome of the random source,
`generateId n` is a string of exactly `n` characters, each a member of
`charset`; and `charset` has exactly 62 characters, pairwise distinct, namely
the 26 lowercase letters, the 26 uppercase letters and the 10 digits. -/
theorem generateId_alphabet (r : Rand) (n : Nat) :
    (generateId r n).1.length = n ∧
    (∀ c ∈ (generateId r n).1.data, c ∈ charset.data) ∧
    charset.length = 62 ∧ charset.data.Nodup ∧
    charset.data = lowercaseLetters ++ uppercaseLetters ++ digits ∧
    lowercaseLetters.length = 26 ∧ uppercaseLetters.length = 26 ∧ digits.length = 10 := by
  obtain ⟨l, h1, h2, h3, _⟩ := generateIdLoop_spec n [] r
  have hid : (generateId r n).1 = String.mk l := by
    simp only [generateId]
    rw [h1]
    simp
  refine ⟨?_, ?_, by decide, by decide, by decide, by decide, by decide, by decide⟩
  · rw [hid]
    simpa using h2
  · rw [hid]
    simpa using h3

theorem generateId_rand (r : Rand) (n : Nat) :
    (generateId r n).2 = { r with pos := r.pos + n } := by
  obtain ⟨l, _, _, _, h4⟩ := generateIdLoop_spec n [] r
  simp only [generateId]
  exact h4

/-! ## Persistence store -/

theorem mem_ids_iff (db : DB) (id : String) : id ∈ db.ids ↔ ∃ r ∈ db, r.id = id := by
  simp [DB.ids]

theorem any_id_iff (db : DB) (id : String) :
    db.any (fun r => r.id == id) = true ↔ id ∈ db.ids := by
  simp [DB.ids]

theorem find_none_iff (db : DB) (id : String) :
    db.find? (fun r => r.id == id) = none ↔ id ∉ db.ids := by
  simp [DB.ids]

theorem find_of_mem_nodup (db : DB) (r : Row) (hr : r ∈ db) (hu : db.ids.Nodup) :
    db.find? (fun x => x.id == r.id) = some r := by
  induction db with
  | nil => simp at hr
  | cons x xs ih =>
    simp only [DB.ids, List.map_cons, List.nodup_cons] at hu
    by_cases hx : x.id = r.id
    · rcases List.mem_cons.mp hr with h | h
      · subst h
        simp [List.find?]
      · exact absurd (List.mem_map_of_mem Row.id h) (hx ▸ hu.1)
    · rcases List.mem_cons.mp hr with h | h
      · exact absurd (h ▸ rfl) hx
      · have hb : (x.id == r.id) = false := by simpa using hx
        rw [List.find?_cons, hb]
        exact ih h hu.2

theorem Insert_ok_iff (db db1 : DB) (file : File) :
    FileRepo.Insert db file = .ok db1 ↔ file.ID ∉ db.ids ∧ db1 = db ++ [Row.ofFile file] := by
  unfold FileRepo.Insert
  by_cases h : db.any (fun r => r.id == file.ID) = true
  · have hm := (any_id_iff db file.ID).mp h
    simp only [h, if_true]
    constructor
    · intro hc; cases hc
    · intro hc; exact absurd hm hc.1
  · have hm : file.ID ∉ db.ids := fun hc => h ((any_id_iff db file.ID).mpr hc)
    simp only [h]
    constructor
    · intro hc
      injection hc with hc
      exact ⟨hm, hc.symm⟩
    · intro hc
      rw [hc.2]
      rfl

theorem Insert_error_iff (db : DB) (file : File) (e : Err) :
    FileRepo.Insert db file = .error e ↔ file.ID ∈ db.ids ∧ e = .constraint := by
  unfold FileRepo.Insert
  by_cases h : db.any (fun r => r.id == file.ID) = true
  · have hm := (any_id_iff db file.ID).mp h
    simp only [h, if_true]
    constructor
    · intro hc
      injection hc with hc
      exact ⟨hm, hc.symm⟩
    · intro hc
      rw [hc.2]
  · have hm : file.ID ∉ db.ids := fun hc => h ((any_id_iff db file.ID).mpr hc)
    simp only [h]
    constructor
    · intro hc; cases hc
    · intro hc; exact absurd hc.1 hm

theorem find_append_fresh (db : DB) (row : Row) (h : row.id ∉ db.ids) :
    (db ++ [row]).find? (fun x => x.id == row.id) = some row := by
  rw [List.find?_append, (find_none_iff db row.id).mpr h]
  simp [List.find?]

theorem Get_of_find (db : DB) (now : Time) (id : String) (r : Row)
    (h : db.find? (fun x => x.id == id) = some r) :
    FileRepo.Get db now id =
      if r.expired_at < now then .error .ErrExpired else .ok r.toFile := by
  simp [FileRepo.Get, h, Time.After]

theorem Get_notFound_iff (db : DB) (now : Time) (id : String) :
    FileRepo.Get db now id = .error .ErrNotFound ↔ id ∉ db.ids := by
  rw [← find_none_iff]
  unfold FileRepo.Get
  cases h : db.find? (fun r => r.id == id) with
  | none => simp
  | some r =>
    by_cases hx : Time.After now r.expired_at = true
    · simp [hx]
    · simp [hx]

theorem lt_wholeSecond_iff (x t : Time) :
    x < Time.wholeSecond t ↔ Time.Unix x < Time.Unix t := by
  unfold Time.wholeSecond Time.Unix
  exact (Nat.div_lt_iff_lt_mul (by decide : 0 < second)).symm

theorem wholeSecond_le (t : Time) : Time.wholeSecond t ≤ t := by
  unfold Time.wholeSecond
  exact Nat.div_mul_le_self t second

theorem expiredAt_same_offset (zone : Location) (t : Time) (r : Row)
    (h : r.expired_off = zone.offsetAt t) :
    Row.expiredAt zone t r = true ↔ r.expired_at < Time.wholeSecond t := by
  rw [lt_wholeSecond_iff]
  simp only [Row.expiredAt, sqlDatetimeNow, wallSecond, h, decide_eq_true_eq]
  omega

theorem ClearExpired_db_cases (fs : FS) (db : DB) (zone : Location) (fault : SweepFault)
    (tSelect tDelete : Time) :
    (FileRepo.ClearExpired fs db zone fault tSelect tDelete).2.2 = db ∨
    (FileRepo.ClearExpired fs db zone fault tSelect tDelete).2.2 =
      db.filter (fun r => !(Row.expiredAt zone tDelete r)) := by
  unfold FileRepo.ClearExpired
  cases fault with
  | none => exact Or.inr rfl
  | query => exact Or.inl rfl
  | scan k =>
    simp only
    split
    · exact Or.inl rfl
    · exact Or.inr rfl
  | rowsErr k => exact Or.inl rfl
  | exec => exact Or.inl rfl

theorem ClearExpired_ok_db (fs : FS) (db : DB) (zone : Location) (fault : SweepFault)
    (tSelect tDelete : Time)
    (hok : (FileRepo.ClearExpired fs db zone fault tSelect tDelete).1 = none) :
    (FileRepo.ClearExpired fs db zone fault tSelect tDelete).2.2 =
      db.filter (fun r => !(Row.expiredAt zone tDelete r)) := by
  unfold FileRepo.ClearExpired at hok ⊢
  cases fault with
  | none => rfl
  | query => simp at hok
  | scan k =>
    simp only at hok ⊢
    split at hok
    · simp at hok
    · rename_i hk
      rw [if_neg hk]
  | rowsErr k => simp at hok
  | exec => simp at hok

theorem ClearExpired_tree_free (fs fs1 : FS) (db : DB) (zone : Location) (fault : SweepFault)
    (tSelect tDelete : Time) :
    (FileRepo.ClearExpired fs1 db zone fault tSelect tDelete).1 =
      (FileRepo.ClearExpired fs db zone fault tSelect tDelete).1 ∧
    (FileRepo.ClearExpired fs1 db zone fault tSelect tDelete).2.2 =
      (FileRepo.ClearExpired fs db zone fault tSelect tDelete).2.2 := by
  unfold FileRepo.ClearExpired
  cases fault with
  | none => exact ⟨rfl, rfl⟩
  | query => exact ⟨rfl, rfl⟩
  | scan k =>
    simp only
    split
    · exact ⟨rfl, rfl⟩
    · exact ⟨rfl, rfl⟩
  | rowsErr k => exact ⟨rfl, rfl⟩
  | exec => exact ⟨rfl, rfl⟩

theorem filter_ids_nodup (db : DB) (p : Row → Bool) (hu : db.ids.Nodup) :
    (DB.ids (db.filter p)).Nodup :=
  List.Nodup.sublist (List.Sublist.map Row.id (List.filter_sublist db)) hu

/-- C9, as amended. In a table with pairwise distinct identifiers,
`FileRepo.Get` at clock reading `now` returns a stored row exactly as
persisted when `now` is not after its `expired_at`, reports `ErrExpired` for a
stored row whose `expired_at` is before `now`, also when that row has not been
purged, and reports `ErrNotFound` exactly when no row with the identifier is
stored. -/
theorem FileRepo_Get_by_expiry (db : DB) (now : Time) (hu : db.ids.Nodup) :
    (∀ r ∈ db, now ≤ r.expired_at → FileRepo.Get db now r.id = .ok r.toFile) ∧
    (∀ r ∈ db, r.expired_at < now → FileRepo.Get db now r.id = .error .ErrExpired) ∧
    (∀ id, FileRepo.Get db now id = .error .ErrNotFound ↔ id ∉ db.ids) := by
  refine ⟨?_, ?_, fun id => Get_notFound_iff db now id⟩
  · intro r hr hle
    rw [Get_of_find db now r.id r (find_of_mem_nodup db r hr hu)]
    simp [Nat.not_lt.mpr hle]
  · intro r hr hlt
    rw [Get_of_find db now r.id r (find_of_mem_nodup db r hr hu)]
    simp [hlt]

/-- Witness of C9 as amended: a one-row table, read one nanosecond after the
row was created. -/
theorem FileRepo_Get_by_expiry_witness :
    (DB.ids [sampleRow]).Nodup ∧ FileRepo.Get [sampleRow] 1 sampleRow.id = .ok sampleRow.toFile :=
  ⟨by decide,
   (FileRepo_Get_by_expiry [sampleRow] 1 (by decide)).1 sampleRow (by decide) (by decide)⟩

/-- C9, the claim as stated fails: the row of `sampleFile` (created at `0`,
`expired_at = 48h`) is stored and has not been purged, and `FileRepo.Get`
one nanosecond after `48h` answers `ErrExpired` instead of the row. -/
theorem FileRepo_Get_hides_expired_row :
    sampleRow ∈ [sampleRow] ∧ sampleRow.id = "aaaaa" ∧ sampleRow.expired_at = 48 * hour ∧
    FileRepo.Get [sampleRow] (48 * hour + 1) "aaaaa" = .error .ErrExpired := by
  decide

/-- C10. For every table and every record `r` whose identifier is not yet
stored, once `FileRepo.Insert r` has succeeded, `FileRepo.Get r.ID` at any
time before `r.CreatedAt + 48h` succeeds with a record that has the same `ID`,
`OriginalName`, `StoragePath`, `Size` and `ContentType` as `r` and a
`CreatedAt` equal to that of `r` to the second. -/
theorem Insert_Get_roundtrip (db db1 : DB) (r : File) (t : Time)
    (hfresh : r.ID ∉ db.ids) (hins : FileRepo.Insert db r = .ok db1)
    (ht : t < Time.Add r.CreatedAt (48 * hour)) :
    ∃ f : File, FileRepo.Get db1 t r.ID = .ok f ∧
      f.ID = r.ID ∧ f.OriginalName = r.OriginalName ∧ f.StoragePath = r.StoragePath ∧
      f.Size = r.Size ∧ f.ContentType = r.ContentType ∧
      Time.Unix f.CreatedAt = Time.Unix r.CreatedAt := by
  obtain ⟨_, hdb⟩ := (Insert_ok_iff db db1 r).mp hins
  subst hdb
  have hfind := find_append_fresh db (Row.ofFile r) hfresh
  have hget := Get_of_find (db ++ [Row.ofFile r]) t r.ID (Row.ofFile r) hfind
  have hlive : ¬ (Row.ofFile r).expired_at < t := by
    simp only [Row.ofFile, Time.Add] at ht ⊢
    exact Nat.lt_asymm ht
  rw [if_neg hlive] at hget
  exact ⟨(Row.ofFile r).toFile, hget, rfl, rfl, rfl, rfl, rfl, rfl⟩

/-- Witness of C10: `sampleFile` inserted into the empty table and read back
one hour after its creation. -/
theorem Insert_Get_roundtrip_witness :
    sampleFile.ID ∉ DB.ids [] ∧ FileRepo.Insert [] sampleFile = .ok [sampleRow] ∧
    hour < Time.Add sampleFile.CreatedAt (48 * hour) ∧
    ∃ f : File, FileRepo.Get [sampleRow] hour sampleFile.ID = .ok f ∧
      f.ID = sampleFile.ID ∧ f.OriginalName = sampleFile.OriginalName ∧
      f.StoragePath = sampleFile.StoragePath ∧ f.Size = sampleFile.Size ∧
      f.ContentType = sampleFile.ContentType ∧
      Time.Unix f.CreatedAt = Time.Unix sampleFile.CreatedAt :=
  ⟨by decide, by decide, by decide,
   Insert_Get_roundtrip [] [sampleRow] sampleFile hour (by decide) (by decide) (by decide)⟩

/-! ## `FileService.Get` -/

theorem ServiceGet_of_find (w : World) (now : Time) (id : String) (r : Row)
    (h : w.db.find? (fun x => x.id == id) = some r) :
    FileService.Get w now id =
      if r.expired_at < now then .error .ErrInRepo else .ok r.toFile := by
  unfold FileService.Get
  rw [Get_of_find w.db now id r h]
  by_cases hx : r.expired_at < now
  · simp [hx]
  · simp [hx]

/-- C1, as amended. For every stored record, with `created_at = T` and
`expired_at = T + 48h` as `FileRepo.Insert` writes it, in a table with
pairwise distinct identifiers, and every query time `t`: `FileService.Get`
returns the live record when `t <= T + 48h`, the boundary `t = T + 48h`
included; when `t > T + 48h` it returns an error that is not `ErrNotFound`;
and a sweep, failed or not, that ran no later than `t` leaves the answer for
a live record unchanged when the `expired_at` of the record is written with
the offset from UTC that local time has at the sweep. -/
theorem FileService_Get_live_window (w : World) (r : Row) (t : Time)
    (hr : r ∈ w.db) (hu : w.db.ids.Nodup)
    (he : r.expired_at = Time.Add r.created_at (48 * hour)) :
    (t ≤ r.created_at + 48 * hour → FileService.Get w t r.id = .ok r.toFile) ∧
    (r.created_at + 48 * hour < t →
      ∃ e, FileService.Get w t r.id = .error e ∧ e ≠ .ErrNotFound) ∧
    (∀ (fault : SweepFault) (tSelect tDelete : Time),
      tDelete ≤ t → t ≤ r.created_at + 48 * hour →
      r.expired_off = w.zone.offsetAt tDelete →
      FileService.Get
        { w with fs := (FileRepo.ClearExpired w.fs w.db w.zone fault tSelect tDelete).2.1
                 db := (FileRepo.ClearExpired w.fs w.db w.zone fault tSelect tDelete).2.2 }
        t r.id = .ok r.toFile) := by
  have hexp : r.expired_at = r.created_at + 48 * hour := he
  refine ⟨?_, ?_, ?_⟩
  · intro hle
    rw [ServiceGet_of_find w t r.id r (find_of_mem_nodup w.db r hr hu), hexp]
    exact if_neg (Nat.not_lt.mpr hle)
  · intro hlt
    refine ⟨.ErrInRepo, ?_, by decide⟩
    rw [ServiceGet_of_find w t r.id r (find_of_mem_nodup w.db r hr hu), hexp]
    exact if_pos hlt
  · intro fault tSelect tDelete htd hle hoff
    have hkeep : r ∈ w.db.filter (fun x => !(Row.expiredAt w.zone tDelete x)) := by
      rw [List.mem_filter]
      refine ⟨hr, ?_⟩
      have h1 : Time.wholeSecond tDelete ≤ r.created_at + 48 * hour :=
        Nat.le_trans (wholeSecond_le tDelete) (Nat.le_trans htd hle)
      have h2 : ¬ Row.expiredAt w.zone tDelete r = true := by
        rw [expiredAt_same_offset w.zone tDelete r hoff, hexp]
        exact Nat.not_lt.mpr h1
      simpa using h2
    have hu1 := filter_ids_nodup w.db (fun x => !(Row.expiredAt w.zone tDelete x)) hu
    have hfind : (FileRepo.ClearExpired w.fs w.db w.zone fault tSelect tDelete).2.2.find?
        (fun x => x.id == r.id) = some r := by
      rcases ClearExpired_db_cases w.fs w.db w.zone fault tSelect tDelete with h | h
      · rw [h]
        exact find_of_mem_nodup w.db r hr hu
      · rw [h]
        exact find_of_mem_nodup _ r hkeep hu1
    rw [ServiceGet_of_find _ t r.id r hfind, hexp]
    exact if_neg (Nat.not_lt.mpr hle)

/-- Witness of C1 as amended: the row of `sampleFile`, created at `0`, read
after one hour. -/
theorem FileService_Get_live_window_witness :
    sampleRow ∈ [sampleRow] ∧ (DB.ids [sampleRow]).Nodup ∧
    sampleRow.expired_at = Time.Add sampleRow.created_at (48 * hour) ∧
    hour ≤ sampleRow.created_at + 48 * hour ∧
    FileService.Get { fs := [], db := [sampleRow], rand := zeroRand } hour sampleRow.id
      = .ok sampleRow.toFile ∧
    FileService.Get (run { fs := [], db := [sampleRow], rand := zeroRand }
      [.sweep hour hour]).1 hour sampleRow.id = .ok sampleRow.toFile :=
  ⟨by decide, by decide, by decide, by decide,
   (FileService_Get_live_window { fs := [], db := [sampleRow], rand := zeroRand } sampleRow hour
    (by decide) (by decide) (by decide)).1 (by decide),
   (FileService_Get_live_window { fs := [], db := [sampleRow], rand := zeroRand } sampleRow hour
    (by decide) (by decide) (by decide)).2.2 .none hour hour (by decide) (by decide)
    (by decide)⟩

/-- C1, the claim as stated fails. `sampleFile` is created at `T = 0` and
inserted into the empty table. At the boundary `t = T + 48h` the service
returns the record, not an error; one nanosecond later it returns
`ErrInRepo`, the internal error, not `ErrExpired`, although the repository
itself answered `ErrExpired`. And in a process whose local time is Tokyo's,
the record, stamped in UTC, is live at `t = T + 46h`, but once a sweep has
run at that time the service answers `ErrNotFound`. -/
theorem FileService_Get_boundary_and_error :
    FileRepo.Insert [] sampleFile = .ok [sampleRow] ∧
    FileService.Get { fs := [], db := [sampleRow], rand := zeroRand } (0 + 48 * hour) "aaaaa"
      = .ok sampleFile ∧
    FileRepo.Get [sampleRow] (0 + 48 * hour + 1) "aaaaa" = .error .ErrExpired ∧
    FileService.Get { fs := [], db := [sampleRow], rand := zeroRand } (0 + 48 * hour + 1) "aaaaa"
      = .error .ErrInRepo ∧
    FileService.Get tokyoWorld (0 + 46 * hour) "aaaaa" = .ok sampleFile ∧
    FileService.Get (run tokyoWorld [.sweep (0 + 46 * hour) (0 + 46 * hour)]).1
      (0 + 46 * hour) "aaaaa" = .error .ErrNotFound := by
  decide

/-! ## `FileService.Upload`, step by step -/

theorem Upload_ok_inv (w w1 : World) (now : Time) (uuid name : String) (size : Int)
    (contentType id : String)
    (h : FileService.Upload w now uuid name size contentType = (.ok id, w1)) :
    ∃ fs1 fs2, MkdirAll w.fs (filepathJoin "data/storage" (uuid ++ ".dat")) = (none, fs1) ∧
      Rename fs1 (filepathJoin "data/tmp" uuid) (filepathJoin "data/storage" (uuid ++ ".dat"))
        = .ok fs2 ∧
      id = (generateId w.rand 5).1 ∧
      FileRepo.Insert w.db
        { ID := id, OriginalName := name
          StoragePath := filepathJoin "data/storage" (uuid ++ ".dat")
          Size := size, ContentType := contentType, CreatedAt := now
          CreatedAtLoc := w.zone } = .ok w1.db ∧
      w1.fs = fs2 ∧ w1.rand = (generateId w.rand 5).2 := by
  unfold FileService.Upload at h
  simp only at h
  split at h
  · cases h
  · rename_i fs1 hmk
    split at h
    · cases h
    · rename_i fs2 hrn
      split at h
      · cases h
      · rename_i db1 hin
        injection h with h1 h2
        injection h1 with h1
        subst h1 h2
        exact ⟨fs1, fs2, hmk, hrn, rfl, hin, rfl, rfl⟩

theorem Upload_error_inv (w w1 : World) (now : Time) (uuid name : String) (size : Int)
    (contentType : String) (e : Err)
    (h : FileService.Upload w now uuid name size contentType = (.error e, w1)) :
    w1.db = w.db ∧ w1.rand = (generateId w.rand 5).2 ∧
    ((∃ en, MkdirAll w.fs (filepathJoin "data/storage" (uuid ++ ".dat")) = (some en, w1.fs) ∧
        e = .pathError en) ∨
     (MkdirAll w.fs (filepathJoin "data/storage" (uuid ++ ".dat")) = (none, w1.fs) ∧
        (∃ en, Rename w1.fs (filepathJoin "data/tmp" uuid)
          (filepathJoin "data/storage" (uuid ++ ".dat")) = .error en) ∧
        e = .ErrInService) ∨
     (∃ fs1, MkdirAll w.fs (filepathJoin "data/storage" (uuid ++ ".dat")) = (none, fs1) ∧
        Rename fs1 (filepathJoin "data/tmp" uuid)
          (filepathJoin "data/storage" (uuid ++ ".dat")) = .ok w1.fs ∧
        (generateId w.rand 5).1 ∈ w.db.ids ∧ e = .ErrInRepo)) := by
  unfold FileService.Upload at h
  simp only at h
  split at h
  · rename_i en fs1 hmk
    injection h with h1 h2
    injection h1 with h1
    subst h1 h2
    exact ⟨rfl, rfl, Or.inl ⟨en, hmk, rfl⟩⟩
  · rename_i fs1 hmk
    split at h
    · rename_i en hrn
      injection h with h1 h2
      injection h1 with h1
      subst h1 h2
      exact ⟨rfl, rfl, Or.inr (Or.inl ⟨hmk, ⟨en, hrn⟩, rfl⟩)⟩
    · rename_i fs2 hrn
      split at h
      · rename_i e1 hin
        injection h with h1 h2
        injection h1 with h1
        subst h1 h2
        exact ⟨rfl, rfl, Or.inr (Or.inr ⟨fs1, hmk, hrn,
          ((Insert_error_iff _ _ _).mp hin).1, rfl⟩)⟩
      · cases h

/-- C2. For every `(tempRef, filename, size, contentType)`: if `Upload`
succeeds and returns `id`, then `FileService.Get id` right afterwards (at any
clock reading up to `48h` after the upload) succeeds, so the record is live,
and the record it returns has `OriginalName`, `Size` and `ContentType` equal
to the submitted `filename`, `size` and `contentType`. -/
theorem Upload_Get_roundtrip (w w1 : World) (now t : Time) (uuid name : String) (size : Int)
    (contentType id : String)
    (h : FileService.Upload w now uuid name size contentType = (.ok id, w1))
    (ht : t ≤ now + 48 * hour) :
    ∃ f : File, FileService.Get w1 t id = .ok f ∧
      f.OriginalName = name ∧ f.Size = size ∧ f.ContentType = contentType := by
  obtain ⟨fs1, fs2, _, _, _, hin, _, _⟩ := Upload_ok_inv w w1 now uuid name size contentType id h
  obtain ⟨hfresh, hdb⟩ := (Insert_ok_iff _ _ _).mp hin
  have hfind := find_append_fresh w.db
    (Row.ofFile
      { ID := id, OriginalName := name
        StoragePath := filepathJoin "data/storage" (uuid ++ ".dat")
        Size := size, ContentType := contentType, CreatedAt := now
        CreatedAtLoc := w.zone }) hfresh
  rw [← hdb] at hfind
  have hget := ServiceGet_of_find w1 t id _ hfind
  have hlive : ¬ now + 48 * hour < t := Nat.not_lt.mpr ht
  simp only [Row.ofFile, Time.Add] at hget
  rw [if_neg hlive] at hget
  exact ⟨_, hget, rfl, rfl, rfl⟩

/-- Witness of C2: an upload of `report.pdf` that succeeds with the
identifier `aaaaa`, read back at the same clock reading. -/
theorem Upload_Get_roundtrip_witness :
    (FileService.Upload linkedWorld 0 "tmp-a" "report.pdf" 2048 "application/pdf").1
      = .ok "aaaaa" ∧
    ∃ f : File,
      FileService.Get
        (FileService.Upload linkedWorld 0 "tmp-a" "report.pdf" 2048 "application/pdf").2 0 "aaaaa"
        = .ok f ∧
      f.OriginalName = "report.pdf" ∧ f.Size = 2048 ∧ f.ContentType = "application/pdf" :=
  ⟨by decide,
   Upload_Get_roundtrip linkedWorld _ 0 0 "tmp-a" "report.pdf" 2048 "application/pdf" "aaaaa"
    (Prod.ext (by decide) rfl) (by decide)⟩

/-! ## Identifiers of stored records -/

theorem ids_append (db : DB) (row : Row) : DB.ids (db ++ [row]) = db.ids ++ [row.id] := by
  simp [DB.ids]

theorem Upload_ok_ids (w w1 : World) (now : Time) (uuid name : String) (size : Int)
    (contentType id : String)
    (h : FileService.Upload w now uuid name size contentType = (.ok id, w1)) :
    id ∉ w.db.ids ∧ w1.db.ids = w.db.ids ++ [id] ∧ id = (generateId w.rand 5).1 := by
  obtain ⟨fs1, fs2, _, _, hid, hin, _, _⟩ := Upload_ok_inv w w1 now uuid name size contentType id h
  obtain ⟨hfresh, hdb⟩ := (Insert_ok_iff _ _ _).mp hin
  refine ⟨hfresh, ?_, hid⟩
  rw [hdb, ids_append]
  rfl

theorem nodup_append_fresh (l : List String) (id : String) (hu : l.Nodup) (h : id ∉ l) :
    (l ++ [id]).Nodup := by
  rw [List.nodup_append]
  refine ⟨hu, List.nodup_singleton id, ?_⟩
  intro a ha hb
  rw [List.mem_singleton] at hb
  exact h (hb ▸ ha)

theorem step_nodup (w : World) (op : Op) (hu : w.db.ids.Nodup) :
    (step w op).1.db.ids.Nodup := by
  cases op with
  | upload now uuid name size contentType =>
    simp only [step]
    cases h : FileService.Upload w now uuid name size contentType with
    | mk res w1 =>
      cases res with
      | ok id =>
        obtain ⟨hfresh, hids, _⟩ := Upload_ok_ids w w1 now uuid name size contentType id h
        show w1.db.ids.Nodup
        rw [hids]
        exact nodup_append_fresh _ _ hu hfresh
      | error e =>
        obtain ⟨hdb, _, _⟩ := Upload_error_inv w w1 now uuid name size contentType e h
        show w1.db.ids.Nodup
        rw [hdb]
        exact hu
  | get now id => exact hu
  | delete id => exact filter_ids_nodup w.db _ hu
  | sweep tSelect tDelete => exact filter_ids_nodup w.db _ hu
  | sweepWith fault tSelect tDelete =>
    show (DB.ids (FileRepo.ClearExpired w.fs w.db w.zone fault tSelect tDelete).2.2).Nodup
    rcases ClearExpired_db_cases w.fs w.db w.zone fault tSelect tDelete with h | h
    · rw [h]
      exact hu
    · rw [h]
      exact filter_ids_nodup w.db _ hu

theorem step_ids (w : World) (op : Op) (hop : op.removes = false) :
    (step w op).1.db.ids = w.db.ids ++ (step w op).2.toList := by
  cases op with
  | upload now uuid name size contentType =>
    simp only [step]
    cases h : FileService.Upload w now uuid name size contentType with
    | mk res w1 =>
      cases res with
      | ok id =>
        obtain ⟨_, hids, _⟩ := Upload_ok_ids w w1 now uuid name size contentType id h
        show w1.db.ids = w.db.ids ++ [id]
        exact hids
      | error e =>
        obtain ⟨hdb, _, _⟩ := Upload_error_inv w w1 now uuid name size contentType e h
        show w1.db.ids = w.db.ids ++ []
        rw [hdb, List.append_nil]
  | get now id => simp [step]
  | delete id => simp [Op.removes] at hop
  | sweep tSelect tDelete => simp [Op.removes] at hop
  | sweepWith fault tSelect tDelete => simp [Op.removes] at hop

theorem run_nodup (ops : List Op) (w : World) (hu : w.db.ids.Nodup) :
    (run w ops).1.db.ids.Nodup := by
  induction ops generalizing w with
  | nil => exact hu
  | cons op ops ih => exact ih (step w op).1 (step_nodup w op hu)

theorem run_ids (ops : List Op) (w : World) (hops : ∀ op ∈ ops, op.removes = false) :
    (run w ops).1.db.ids = w.db.ids ++ (run w ops).2 := by
  induction ops generalizing w with
  | nil => simp [run]
  | cons op ops ih =>
    have h1 := step_ids w op (hops op (List.mem_cons_self op ops))
    have h2 := ih (step w op).1 (fun o ho => hops o (List.mem_cons_of_mem op ho))
    show (run (step w op).1 ops).1.db.ids = w.db.ids ++ ((step w op).2.toList ++ (run (step w op).1 ops).2)
    rw [h2, h1, List.append_assoc]

/-- C3, as amended. For every sequence of registry operations (`Upload`,
`Get`, `Delete`, sweeps) started on a table with pairwise distinct
identifiers: the identifiers of the stored records are pairwise distinct
afterwards; every successful `Upload` returns an identifier that no stored
record had at that moment; and when the sequence has no `Delete` and no sweep,
the identifiers returned by its successful `Upload` calls are pairwise
distinct and differ from those stored at the start. -/
theorem Upload_ids_distinct_while_stored (w : World) (ops : List Op) (hu : w.db.ids.Nodup) :
    (run w ops).1.db.ids.Nodup ∧
    (∀ (v v1 : World) (now : Time) (uuid name : String) (size : Int) (contentType id : String),
      FileService.Upload v now uuid name size contentType = (.ok id, v1) → id ∉ v.db.ids) ∧
    ((∀ op ∈ ops, op.removes = false) →
      (run w ops).2.Nodup ∧ ∀ id ∈ (run w ops).2, id ∉ w.db.ids) := by
  refine ⟨run_nodup ops w hu, ?_, ?_⟩
  · intro v v1 now uuid name size contentType id h
    exact (Upload_ok_ids v v1 now uuid name size contentType id h).1
  · intro hops
    have h1 := run_nodup ops w hu
    rw [run_ids ops w hops, List.nodup_append] at h1
    refine ⟨h1.2.1, ?_⟩
    intro id hid hmem
    exact h1.2.2 hmem hid

/-- Witness of C3 as amended: two uploads in a row, the second of which
draws the identifier of the first and is turned down. -/
theorem Upload_ids_distinct_while_stored_witness :
    (DB.ids linkedWorld.db).Nodup ∧
    (run linkedWorld
      [.upload 0 "tmp-a" "report.pdf" 2048 "application/pdf",
       .upload 1 "tmp-b" "cat.gif" 3 "image/gif"]).2 = ["aaaaa"] ∧
    (run linkedWorld
      [.upload 0 "tmp-a" "report.pdf" 2048 "application/pdf",
       .upload 1 "tmp-b" "cat.gif" 3 "image/gif"]).2.Nodup :=
  ⟨by decide, by decide,
   ((Upload_ids_distinct_while_stored linkedWorld
      [.upload 0 "tmp-a" "report.pdf" 2048 "application/pdf",
       .upload 1 "tmp-b" "cat.gif" 3 "image/gif"] (by decide)).2.2 (by decide)).1⟩

/-- C3, the claim as stated fails. In one process lifetime: an upload
returns `aaaaa`; a sweep two seconds after the record's expiry purges it; the
next upload draws `aaaaa` again, the insert is accepted, and the same
identifier is returned a second time. -/
theorem Upload_id_returned_twice :
    (run linkedWorld
      [.upload 0 "tmp-a" "report.pdf" 2048 "application/pdf",
       .sweep (48 * hour + 2 * second) (48 * hour + 2 * second),
       .upload (48 * hour + 3 * second) "tmp-b" "cat.gif" 3 "image/gif"]).2
      = ["aaaaa", "aaaaa"] := by
  decide

/-! ## One identifier, one insert -/

theorem Upload_of_moved (w : World) (now : Time) (uuid name : String) (size : Int)
    (contentType : String) (fs1 fs2 : FS)
    (hmk : MkdirAll w.fs (filepathJoin "data/storage" (uuid ++ ".dat")) = (none, fs1))
    (hrn : Rename fs1 (filepathJoin "data/tmp" uuid)
      (filepathJoin "data/storage" (uuid ++ ".dat")) = .ok fs2) :
    (FileService.Upload w now uuid name size contentType).1 =
      if (generateId w.rand 5).1 ∈ w.db.ids then .error .ErrInRepo
      else .ok (generateId w.rand 5).1 := by
  unfold FileService.Upload
  simp only [hmk, hrn]
  by_cases hin : (generateId w.rand 5).1 ∈ w.db.ids
  · have hany := (any_id_iff w.db _).mpr hin
    simp [FileRepo.Insert, hany, hin]
  · have hany : ¬ (w.db.any (fun r => r.id == (generateId w.rand 5).1) = true) :=
      fun hc => hin ((any_id_iff w.db _).mp hc)
    simp [FileRepo.Insert, hany, hin]

theorem Upload_rand (w : World) (now : Time) (uuid name : String) (size : Int)
    (contentType : String) :
    (FileService.Upload w now uuid name size contentType).2.rand =
      { w.rand with pos := w.rand.pos + 5 } := by
  rw [← generateId_rand]
  cases h : FileService.Upload w now uuid name size contentType with
  | mk res w1 =>
    cases res with
    | ok id =>
      obtain ⟨_, _, _, _, _, _, _, hr⟩ := Upload_ok_inv w w1 now uuid name size contentType id h
      exact hr
    | error e =>
      exact (Upload_error_inv w w1 now uuid name size contentType e h).2.1

/-- C4, as amended. `Upload` generates exactly one identifier (five draws of
the random source) and makes one insert attempt, without any retry. When it
succeeds, the returned identifier is that one generated identifier, and it
was not stored before. When the generated identifier is already stored,
`Upload` fails and the table is unchanged, whatever later draws would give;
if the move of the staged file went through, the error is `ErrInRepo`. When
the move went through and the generated identifier is free, `Upload` returns
it. -/
theorem Upload_single_attempt (w : World) (now : Time) (uuid name : String) (size : Int)
    (contentType : String) :
    (FileService.Upload w now uuid name size contentType).2.rand =
      { w.rand with pos := w.rand.pos + 5 } ∧
    (∀ id, (FileService.Upload w now uuid name size contentType).1 = .ok id →
      id = (generateId w.rand 5).1 ∧ id ∉ w.db.ids) ∧
    ((generateId w.rand 5).1 ∈ w.db.ids →
      (∃ e, (FileService.Upload w now uuid name size contentType).1 = .error e) ∧
      (FileService.Upload w now uuid name size contentType).2.db = w.db) ∧
    (∀ fs1 fs2, MkdirAll w.fs (filepathJoin "data/storage" (uuid ++ ".dat")) = (none, fs1) →
      Rename fs1 (filepathJoin "data/tmp" uuid)
        (filepathJoin "data/storage" (uuid ++ ".dat")) = .ok fs2 →
      ((generateId w.rand 5).1 ∈ w.db.ids →
        (FileService.Upload w now uuid name size contentType).1 = .error .ErrInRepo) ∧
      ((generateId w.rand 5).1 ∉ w.db.ids →
        (FileService.Upload w now uuid name size contentType).1
          = .ok (generateId w.rand 5).1)) := by
  refine ⟨Upload_rand w now uuid name size contentType, ?_, ?_, ?_⟩
  · intro id hid
    cases h : FileService.Upload w now uuid name size contentType with
    | mk res w1 =>
      rw [h] at hid
      simp only at hid
      subst hid
      obtain ⟨h1, _, h3⟩ := Upload_ok_ids w w1 now uuid name size contentType id h
      exact ⟨h3, h1⟩
  · intro htaken
    cases h : FileService.Upload w now uuid name size contentType with
    | mk res w1 =>
      cases res with
      | ok id =>
        obtain ⟨h1, _, h3⟩ := Upload_ok_ids w w1 now uuid name size contentType id h
        exact absurd (h3 ▸ htaken) h1
      | error e =>
        exact ⟨⟨e, rfl⟩, (Upload_error_inv w w1 now uuid name size contentType e h).1⟩
  · intro fs1 fs2 hmk hrn
    have h := Upload_of_moved w now uuid name size contentType fs1 fs2 hmk hrn
    constructor
    · intro hin
      rw [h, if_pos hin]
    · intro hout
      rw [h, if_neg hout]

/-- Witness of C4 as amended: the generated identifier `aaaaa` is stored
already and the upload fails. -/
theorem Upload_single_attempt_witness :
    (generateId takenWorld.rand 5).1 ∈ takenWorld.db.ids ∧
    (∃ e, (FileService.Upload takenWorld 1 "tmp-b" "cat.gif" 3 "image/gif").1 = .error e) ∧
    (FileService.Upload takenWorld 1 "tmp-b" "cat.gif" 3 "image/gif").2.db = takenWorld.db :=
  ⟨by decide,
   (Upload_single_attempt takenWorld 1 "tmp-b" "cat.gif" 3 "image/gif").2.2.1 (by decide)⟩

/-- C4, the claim as stated fails. The first generated identifier `aaaaa` is
taken (the insert is rejected as a duplicate key), the next identifier the
source would give, `bbbbb`, is free, and the move of the staged file went
through; `Upload` does not generate a second identifier but fails with
`ErrInRepo` after five draws, leaving the table as it was. -/
theorem Upload_no_retry :
    (generateId takenWorld.rand 5).1 = "aaaaa" ∧
    FileRepo.Insert takenWorld.db
      { ID := "aaaaa", OriginalName := "cat.gif", StoragePath := "data/storage/tmp-b.dat"
        Size := 3, ContentType := "image/gif", CreatedAt := 1 } = .error .constraint ∧
    (generateId (generateId takenWorld.rand 5).2 5).1 = "bbbbb" ∧
    "bbbbb" ∉ takenWorld.db.ids ∧
    (FileService.Upload takenWorld 1 "tmp-b" "cat.gif" 3 "image/gif").1 = .error .ErrInRepo ∧
    (FileService.Upload takenWorld 1 "tmp-b" "cat.gif" 3 "image/gif").2.rand.pos = 5 ∧
    (FileService.Upload takenWorld 1 "tmp-b" "cat.gif" 3 "image/gif").2.db = [sampleRow] ∧
    (FileService.Upload takenWorld 1 "tmp-b" "cat.gif" 3 "image/gif").2.fs.lstat
      "data/storage/tmp-b.dat" = some (.file [71, 73, 70]) := by
  decide

/-! ## Directory tree -/

theorem lookup_append_of_some (fs x : FS) (q : String) (n : Node)
    (h : fs.lookup q = some n) : (fs ++ x).lookup q = some n := by
  induction fs with
  | nil => simp at h
  | cons a fs ih =>
    obtain ⟨k, v⟩ := a
    rw [List.cons_append, List.lookup_cons]
    rw [List.lookup_cons] at h
    cases hk : (q == k) with
    | true => rw [hk] at h; exact h
    | false => rw [hk] at h; exact ih h

theorem lookup_append_of_none (fs x : FS) (q : String)
    (h : fs.lookup q = none) : (fs ++ x).lookup q = x.lookup q := by
  induction fs with
  | nil => rfl
  | cons a fs ih =>
    obtain ⟨k, v⟩ := a
    rw [List.cons_append, List.lookup_cons]
    rw [List.lookup_cons] at h
    cases hk : (q == k) with
    | true => rw [hk] at h; cases h
    | false => rw [hk] at h; exact ih h

theorem Mkdir_ok (fs fs2 : FS) (path : String) (h : Mkdir fs path = .ok fs2) :
    fs2 = fs ++ [(path, .dir)] ∧ fs.lstat path = none := by
  unfold Mkdir at h
  split at h
  · cases h
  · split at h
    · cases h
    · split at h
      · cases h
      · rename_i hl
        injection h with h
        exact ⟨h.symm, hl⟩

theorem Mkdir_lstat_new (fs fs2 : FS) (path : String) (h : Mkdir fs path = .ok fs2) :
    fs2.lstat path = some .dir := by
  obtain ⟨h1, h2⟩ := Mkdir_ok fs fs2 path h
  subst h1
  unfold FS.lstat at h2 ⊢
  rw [lookup_append_of_none fs _ path h2]
  simp [List.lookup]

theorem Mkdir_lstat_old (fs fs2 : FS) (path q : String) (n : Node)
    (h : Mkdir fs path = .ok fs2) (hq : fs.lstat q = some n) : fs2.lstat q = some n := by
  obtain ⟨h1, _⟩ := Mkdir_ok fs fs2 path h
  subst h1
  exact lookup_append_of_some fs _ q n hq

theorem MkdirAllRec_lstat_old (l : List String) (fs : FS) (q : String) (n : Node)
    (hq : fs.lstat q = some n) : (MkdirAllRec l fs).2.lstat q = some n := by
  induction l with
  | nil => exact hq
  | cons path parents ih =>
    unfold MkdirAllRec
    split
    · exact hq
    · exact hq
    · split
      · rename_i e fs1 hrec
        rw [hrec] at ih
        exact ih
      · rename_i fs1 hrec
        rw [hrec] at ih
        split
        · rename_i fs2 hmk
          exact Mkdir_lstat_old fs1 fs2 path q n hmk ih
        · split
          · exact ih
          · exact ih

theorem stat_dir_lstat (fs : FS) (path : String) (h : fs.stat path = some .dir) :
    fs.lstat path = some .dir ∨ ∃ t, fs.lstat path = some (.symlink t) := by
  unfold FS.stat FS.follow at h
  split at h
  · rename_i t hl
    exact Or.inr ⟨t, hl⟩
  · exact Or.inl h

theorem MkdirAllRec_target (path : String) (parents : List String) (fs fs1 : FS)
    (h : MkdirAllRec (path :: parents) fs = (none, fs1)) :
    fs1.lstat path = some .dir ∨ ∃ t, fs.lstat path = some (.symlink t) := by
  unfold MkdirAllRec at h
  split at h
  · rename_i hst
    injection h with _ h2
    subst h2
    exact stat_dir_lstat fs path hst
  · cases h
  · split at h
    · cases h
    · rename_i fs0 hrec
      split at h
      · rename_i fs2 hmk
        injection h with _ h2
        subst h2
        exact Or.inl (Mkdir_lstat_new fs0 fs2 path hmk)
      · split at h
        · rename_i hl
          injection h with _ h2
          subst h2
          exact Or.inl hl
        · cases h

theorem Rename_ok_not_dir (fs fs2 : FS) (oldname newname : String)
    (h : Rename fs oldname newname = .ok fs2) : fs.lstat newname ≠ some .dir := by
  intro hd
  unfold Rename at h
  rw [hd] at h
  simp only at h
  split at h <;> cases h

/-! ## The temporary path and the storage path are different -/

theorem splitSlash_ne_nil (l : List Char) : splitSlash l ≠ [] := by
  induction l with
  | nil => simp [splitSlash]
  | cons c cs ih =>
    unfold splitSlash
    split
    · simp
    · split <;> simp

theorem splitSlash_cons (c : Char) (cs : List Char) (h : List Char) (t : List (List Char))
    (hs : splitSlash cs = h :: t) :
    splitSlash (c :: cs) = if c = '/' then [] :: h :: t else (c :: h) :: t := by
  rw [splitSlash, hs]

theorem splitSlash_append_slash (a b : List Char) :
    splitSlash (a ++ '/' :: b) = splitSlash a ++ splitSlash b := by
  induction a with
  | nil =>
    cases hb : splitSlash b with
    | nil => exact absurd hb (splitSlash_ne_nil b)
    | cons h t =>
      rw [List.nil_append, splitSlash_cons '/' b h t hb]
      simp [splitSlash]
  | cons c a ih =>
    cases ha : splitSlash a with
    | nil => exact absurd ha (splitSlash_ne_nil a)
    | cons h t =>
      rw [List.cons_append, splitSlash_cons c (a ++ '/' :: b) h (t ++ splitSlash b)
        (by rw [ih, ha]; rfl), splitSlash_cons c a h t ha]
      split <;> rfl

theorem splitSlash_noslash (x : List Char) (hx : '/' ∉ x) : splitSlash x = [x] := by
  induction x with
  | nil => rfl
  | cons c cs ih =>
    have hc : c ≠ '/' := fun h => hx (h ▸ List.mem_cons_self c cs)
    have hcs : '/' ∉ cs := fun h => hx (List.mem_cons_of_mem c h)
    rw [splitSlash_cons c cs cs [] (ih hcs), if_neg hc]

theorem splitSlash_append_suffix (x : List Char) (hx : '/' ∉ x) (a : List Char) :
    ∃ (init : List (List Char)) (last : List Char),
      splitSlash a = init ++ [last] ∧ splitSlash (a ++ x) = init ++ [last ++ x] := by
  induction a with
  | nil => exact ⟨[], [], rfl, by simpa using splitSlash_noslash x hx⟩
  | cons c a ih =>
    obtain ⟨init, last, h1, h2⟩ := ih
    cases init with
    | nil =>
      simp only [List.nil_append] at h1 h2
      by_cases hc : c = '/'
      · refine ⟨[[]], last, ?_, ?_⟩
        · rw [splitSlash_cons c a last [] h1, if_pos hc]; rfl
        · rw [List.cons_append, splitSlash_cons c (a ++ x) (last ++ x) [] h2, if_pos hc]; rfl
      · refine ⟨[], c :: last, ?_, ?_⟩
        · rw [splitSlash_cons c a last [] h1, if_neg hc]; rfl
        · rw [List.cons_append, splitSlash_cons c (a ++ x) (last ++ x) [] h2, if_neg hc]; rfl
    | cons h t =>
      by_cases hc : c = '/'
      · refine ⟨[] :: h :: t, last, ?_, ?_⟩
        · rw [splitSlash_cons c a h (t ++ [last]) h1, if_pos hc]; rfl
        · rw [List.cons_append, splitSlash_cons c (a ++ x) h (t ++ [last ++ x]) h2, if_pos hc]
          rfl
      · refine ⟨(c :: h) :: t, last, ?_, ?_⟩
        · rw [splitSlash_cons c a h (t ++ [last]) h1, if_neg hc]; rfl
        · rw [List.cons_append, splitSlash_cons c (a ++ x) h (t ++ [last ++ x]) h2, if_neg hc]
          rfl

theorem splitSlash_joinSlash (l : List (List Char)) (hne : l ≠ [])
    (hl : ∀ c ∈ l, '/' ∉ c) : splitSlash (joinSlash l) = l := by
  induction l with
  | nil => exact absurd rfl hne
  | cons c rest ih =>
    cases rest with
    | nil =>
      show splitSlash c = [c]
      exact splitSlash_noslash c (hl c (List.mem_cons_self c []))
    | cons d rest =>
      show splitSlash (c ++ '/' :: joinSlash (d :: rest)) = c :: d :: rest
      rw [splitSlash_append_slash, splitSlash_noslash c (hl c (List.mem_cons_self c _)),
        ih (by simp) (fun x hx => hl x (List.mem_cons_of_mem c hx))]
      rfl

theorem sameAbove_length (s t : List (List Char)) (h : sameAbove s t) : s.length = t.length := by
  rcases h with h | ⟨top, h1, h2, _⟩
  · rw [h]
  · rw [h1, h2]; simp

theorem sameAbove_cleanStep (s t : List (List Char)) (c : List Char) (h : sameAbove s t) :
    sameAbove (cleanStep false s c) (cleanStep false t c) := by
  rcases h with h | ⟨top, h1, h2, h3⟩
  · rw [h]; exact Or.inl rfl
  · subst h1 h2
    unfold cleanStep
    by_cases hc : c = [] ∨ c = ['.']
    · rw [if_pos hc, if_pos hc]
      exact Or.inr ⟨top, rfl, rfl, h3⟩
    · rw [if_neg hc, if_neg hc]
      by_cases hd : c = ['.', '.']
      · rw [if_pos hd, if_pos hd]
        cases top with
        | nil =>
          refine Or.inl ?_
          show (if "tmp".data = ['.', '.'] then _ else ["data".data]) =
            (if "storage".data = ['.', '.'] then _ else ["data".data])
          rw [if_neg (by decide), if_neg (by decide)]
        | cons x top =>
          have hx : x ≠ ['.', '.'] := h3 x (List.mem_cons_self x top)
          simp only [List.cons_append, if_neg hx]
          exact Or.inr ⟨top, rfl, rfl, fun y hy => h3 y (List.mem_cons_of_mem x hy)⟩
      · rw [if_neg hd, if_neg hd]
        refine Or.inr ⟨c :: top, rfl, rfl, ?_⟩
        intro y hy
        rcases List.mem_cons.mp hy with rfl | hy
        · exact hd
        · exact h3 y hy

theorem sameAbove_foldl (l : List (List Char)) (s t : List (List Char)) (h : sameAbove s t) :
    sameAbove (l.foldl (cleanStep false) s) (l.foldl (cleanStep false) t) := by
  induction l generalizing s t with
  | nil => exact h
  | cons c l ih => exact ih _ _ (sameAbove_cleanStep s t c h)

theorem cleanStep_mem (rooted : Bool) (s : List (List Char)) (c x : List Char)
    (hx : x ∈ cleanStep rooted s c) : x ∈ s ∨ x = c := by
  unfold cleanStep at hx
  split at hx
  · exact Or.inl hx
  · split at hx
    · split at hx
      · split at hx
        · simp at hx
        · exact Or.inr (by simpa using hx)
      · rename_i top rest
        split at hx
        · rcases List.mem_cons.mp hx with h | h
          · exact Or.inr h
          · exact Or.inl h
        · exact Or.inl (List.mem_cons_of_mem top hx)
    · rcases List.mem_cons.mp hx with h | h
      · exact Or.inr h
      · exact Or.inl h

theorem foldl_cleanStep_mem (rooted : Bool) (l : List (List Char)) (s : List (List Char))
    (x : List Char) (hx : x ∈ l.foldl (cleanStep rooted) s) : x ∈ s ∨ x ∈ l := by
  induction l generalizing s with
  | nil => exact Or.inl hx
  | cons c l ih =>
    rcases ih (cleanStep rooted s c) hx with h | h
    · rcases cleanStep_mem rooted s c x h with h | h
      · exact Or.inl h
      · exact Or.inr (h ▸ List.mem_cons_self c l)
    · exact Or.inr (List.mem_cons_of_mem c h)

theorem splitSlash_mem_noslash (l : List Char) (x : List Char) (hx : x ∈ splitSlash l) :
    '/' ∉ x := by
  induction l generalizing x with
  | nil =>
    simp [splitSlash] at hx
    subst hx
    simp
  | cons c cs ih =>
    cases hs : splitSlash cs with
    | nil => exact absurd hs (splitSlash_ne_nil cs)
    | cons h t =>
      rw [splitSlash_cons c cs h t hs] at hx
      have hh : '/' ∉ h := ih h (hs ▸ List.mem_cons_self h t)
      have ht : ∀ y ∈ t, '/' ∉ y := fun y hy => ih y (hs ▸ List.mem_cons_of_mem h hy)
      by_cases hc : c = '/'
      · rw [if_pos hc] at hx
        rcases List.mem_cons.mp hx with h1 | h1
        · subst h1; simp
        · rcases List.mem_cons.mp h1 with h2 | h2
          · exact h2 ▸ hh
          · exact ht x h2
      · rw [if_neg hc] at hx
        rcases List.mem_cons.mp hx with h1 | h1
        · subst h1
          intro hm
          rcases List.mem_cons.mp hm with h2 | h2
          · exact hc h2.symm
          · exact hh h2
        · exact ht x h1

/-- The last step of `filepath.Clean` below `data/tmp` never gives the stack
that the element with `.dat` appended gives below `data/storage`. -/
theorem cleanStep_ne_push (s t : List (List Char)) (last : List Char) (h : sameAbove s t) :
    cleanStep false s last ≠ (last ++ ".dat".data) :: t := by
  have hlen := sameAbove_length s t h
  have hhead : last ≠ last ++ ".dat".data := by
    intro hc
    have := congrArg List.length hc
    simp at this
  unfold cleanStep
  split
  · intro hc
    have := congrArg List.length hc
    simp at this
    omega
  · split
    · rename_i hd
      split
      · intro hc
        simp only [Bool.false_eq_true, if_false] at hc
        injection hc with h1 _
        exact hhead h1
      · rename_i top rest
        split
        · intro hc
          injection hc with h1 _
          exact hhead h1
        · intro hc
          have := congrArg List.length hc
          simp at this hlen
          omega
    · intro hc
      injection hc with h1 _
      exact hhead h1

theorem filepathClean_unrooted (p : String) (c : Char) (cs : List Char)
    (hp : p.data = c :: cs) (hc : c ≠ '/') :
    filepathClean p =
      if joinSlash ((splitSlash p.data).foldl (cleanStep false) []).reverse = [] then "."
      else String.mk (joinSlash ((splitSlash p.data).foldl (cleanStep false) []).reverse) := by
  have hne : p ≠ "" := by
    intro h
    rw [h] at hp
    cases hp
  unfold filepathClean
  rw [if_neg hne]
  have hr : ¬ (p.data.head? = some '/') := by
    rw [hp]
    simpa using hc
  simp only [hr, decide_False, if_false]

theorem tmp_ne_storage (uuid : String) :
    filepathJoin "data/tmp" uuid ≠ filepathJoin "data/storage" (uuid ++ ".dat") := by
  obtain ⟨init, last, hsplit, hsplit2⟩ :=
    splitSlash_append_suffix ".dat".data (by decide) uuid.data
  have hdt : ("data/tmp" ++ "/" ++ uuid).data = "data/tmp".data ++ '/' :: uuid.data := by
    simp [String.data_append]
  have hds : ("data/storage" ++ "/" ++ (uuid ++ ".dat")).data
      = "data/storage".data ++ '/' :: (uuid.data ++ ".dat".data) := by
    simp [String.data_append]
  have ht : splitSlash ("data/tmp" ++ "/" ++ uuid).data
      = ["data".data, "tmp".data] ++ (init ++ [last]) := by
    rw [hdt, splitSlash_append_slash, hsplit,
      show splitSlash "data/tmp".data = ["data".data, "tmp".data] from by decide]
  have hs : splitSlash ("data/storage" ++ "/" ++ (uuid ++ ".dat")).data
      = ["data".data, "storage".data] ++ (init ++ [last ++ ".dat".data]) := by
    rw [hds, splitSlash_append_slash, hsplit2,
      show splitSlash "data/storage".data = ["data".data, "storage".data] from by decide]
  -- the stacks below the last element
  have hrel : sameAbove (init.foldl (cleanStep false) ["tmp".data, "data".data])
      (init.foldl (cleanStep false) ["storage".data, "data".data]) :=
    sameAbove_foldl init _ _ (Or.inr ⟨[], rfl, rfl, by simp⟩)
  have hst : (splitSlash ("data/tmp" ++ "/" ++ uuid).data).foldl (cleanStep false) []
      = cleanStep false (init.foldl (cleanStep false) ["tmp".data, "data".data]) last := by
    rw [ht, List.foldl_append, List.foldl_append,
      show List.foldl (cleanStep false) [] ["data".data, "tmp".data]
        = ["tmp".data, "data".data] from by decide]
    rfl
  have hpush : ∀ t : List (List Char),
      cleanStep false t (last ++ ".dat".data) = (last ++ ".dat".data) :: t := by
    intro t
    have h1 : ¬ (last ++ ".dat".data = [] ∨ last ++ ".dat".data = ['.']) := by
      rintro (h | h) <;> · have := congrArg List.length h; simp at this
    have h2 : ¬ (last ++ ".dat".data = ['.', '.']) := by
      intro h
      have := congrArg List.length h
      simp at this
    unfold cleanStep
    rw [if_neg h1, if_neg h2]
  have hss : (splitSlash ("data/storage" ++ "/" ++ (uuid ++ ".dat")).data).foldl
        (cleanStep false) []
      = (last ++ ".dat".data) :: init.foldl (cleanStep false) ["storage".data, "data".data] := by
    rw [hs, List.foldl_append, List.foldl_append,
      show List.foldl (cleanStep false) [] ["data".data, "storage".data]
        = ["storage".data, "data".data] from by decide]
    exact hpush _
  have hne := cleanStep_ne_push _ _ last hrel
  rw [← hst, ← hss] at hne
  -- both stacks hold elements without a separator
  have hfree : ∀ (p : String),
      ∀ x ∈ ((splitSlash p.data).foldl (cleanStep false) []).reverse, '/' ∉ x := by
    intro p x hx
    rcases foldl_cleanStep_mem false _ [] x (List.mem_reverse.mp hx) with h | h
    · simp at h
    · exact splitSlash_mem_noslash _ x h
  have hback : ∀ (p : String),
      (splitSlash p.data).foldl (cleanStep false) [] ≠ [] →
      splitSlash (joinSlash ((splitSlash p.data).foldl (cleanStep false) []).reverse)
        = ((splitSlash p.data).foldl (cleanStep false) []).reverse := by
    intro p hp
    exact splitSlash_joinSlash _ (by simpa using hp) (hfree p)
  have hsne : (splitSlash ("data/storage" ++ "/" ++ (uuid ++ ".dat")).data).foldl
      (cleanStep false) [] ≠ [] := by
    rw [hss]; simp
  have hjt : filepathJoin "data/tmp" uuid = filepathClean ("data/tmp" ++ "/" ++ uuid) := by
    unfold filepathJoin
    rw [if_pos (by decide)]
  have hjs : filepathJoin "data/storage" (uuid ++ ".dat")
      = filepathClean ("data/storage" ++ "/" ++ (uuid ++ ".dat")) := by
    unfold filepathJoin
    rw [if_pos (by decide)]
  rw [hjt, hjs,
    filepathClean_unrooted _ 'd' _ (by rw [hdt]; rfl) (by decide),
    filepathClean_unrooted _ 'd' _ (by rw [hds]; rfl) (by decide)]
  have hbs := hback ("data/storage" ++ "/" ++ (uuid ++ ".dat")) hsne
  have hlast1 : last ++ ".dat".data ≠ [] := by
    intro h
    have := congrArg List.length h
    simp at this
  have hlast2 : last ++ ".dat".data ≠ ['.'] := by
    intro h
    have := congrArg List.length h
    simp at this
  have hB : ∀ y : List Char,
      ((splitSlash ("data/storage" ++ "/" ++ (uuid ++ ".dat")).data).foldl
        (cleanStep false) []).reverse = [y] → last ++ ".dat".data = y := by
    intro y hy
    have h1 := congrArg List.reverse hy
    rw [List.reverse_reverse, hss] at h1
    simp only [List.reverse_singleton] at h1
    injection h1
  have hjB : joinSlash ((splitSlash ("data/storage" ++ "/" ++ (uuid ++ ".dat")).data).foldl
      (cleanStep false) []).reverse ≠ [] := by
    intro h
    rw [h] at hbs
    exact hlast1 (hB [] hbs.symm)
  rw [if_neg hjB]
  split
  · intro hc
    have h1 : joinSlash ((splitSlash ("data/storage" ++ "/" ++ (uuid ++ ".dat")).data).foldl
        (cleanStep false) []).reverse = ['.'] := by
      have := congrArg String.data hc
      exact this.symm
    rw [h1] at hbs
    exact hlast2 (hB ['.'] hbs.symm)
  · rename_i hjA
    intro hc
    have hA : (splitSlash ("data/tmp" ++ "/" ++ uuid).data).foldl (cleanStep false) [] ≠ [] := by
      intro h
      rw [h] at hjA
      exact hjA rfl
    have hbt := hback ("data/tmp" ++ "/" ++ uuid) hA
    have h1 := congrArg String.data hc
    simp only at h1
    rw [h1, hbs] at hbt
    have h2 := congrArg List.reverse hbt
    rw [List.reverse_reverse, List.reverse_reverse] at h2
    exact hne h2.symm

theorem lookup_filter_none (fs : FS) (p : String × Node → Bool) (q : String)
    (hp : ∀ v, p (q, v) = false) : (fs.filter p).lookup q = none := by
  induction fs with
  | nil => rfl
  | cons a fs ih =>
    obtain ⟨k, v⟩ := a
    by_cases hk : p (k, v) = true
    · rw [List.filter_cons_of_pos hk, List.lookup_cons]
      have hqk : (q == k) = false := by
        rw [beq_eq_false_iff_ne]
        intro hc
        rw [← hc, hp v] at hk
        cases hk
      rw [hqk]
      exact ih
    · rw [List.filter_cons_of_neg hk]
      exact ih

theorem Mkdir_lstat_back (fs fs2 : FS) (path q : String) (n : Node)
    (h : Mkdir fs path = .ok fs2) (hq : fs2.lstat q = some n) :
    fs.lstat q = some n ∨ n = .dir := by
  obtain ⟨h1, _⟩ := Mkdir_ok fs fs2 path h
  subst h1
  unfold FS.lstat at hq ⊢
  cases hl : fs.lookup q with
  | some m =>
    rw [lookup_append_of_some fs _ q m hl] at hq
    exact Or.inl hq
  | none =>
    rw [lookup_append_of_none fs _ q hl, List.lookup_cons] at hq
    split at hq
    · injection hq with hq
      exact Or.inr hq.symm
    · simp at hq

theorem MkdirAllRec_lstat_back (l : List String) (fs : FS) (q : String) (n : Node)
    (hq : (MkdirAllRec l fs).2.lstat q = some n) : fs.lstat q = some n ∨ n = .dir := by
  induction l with
  | nil => exact Or.inl hq
  | cons path parents ih =>
    unfold MkdirAllRec at hq
    split at hq
    · exact Or.inl hq
    · exact Or.inl hq
    · split at hq
      · rename_i e fs1 hrec
        rw [hrec] at ih
        exact ih hq
      · rename_i fs1 hrec
        rw [hrec] at ih
        split at hq
        · rename_i fs2 hmk
          rcases Mkdir_lstat_back fs1 fs2 path q n hmk hq with h | h
          · exact ih h
          · exact Or.inr h
        · split at hq
          · exact ih hq
          · exact ih hq

theorem Rename_ok_moved (fs fs2 : FS) (oldname newname : String) (m : Node)
    (h : Rename fs oldname newname = .ok fs2) (hne : oldname ≠ newname)
    (hm : fs.lstat newname = some m) :
    ∃ n, fs.lstat oldname = some n ∧ n ≠ .dir ∧
      fs2.lstat newname = some n ∧ fs2.lstat oldname = none := by
  have hnd := Rename_ok_not_dir fs fs2 oldname newname h
  unfold Rename at h
  split at h
  · rename_i hd
    exact absurd hd hnd
  · unfold sysRename at h
    split at h
    · cases h
    · rename_i n hn
      split at h
      · cases h
      · rw [if_neg hne] at h
        split at h
        · rw [hm] at h
          simp at h
        · rename_i hdir
          injection h with h
          subst h
          refine ⟨n, hn, ?_, ?_, ?_⟩
          · intro hc
            exact hdir (hc ▸ rfl)
          · unfold FS.lstat
            rw [lookup_append_of_none _ _ newname
              (lookup_filter_none fs _ newname (by intro v; simp))]
            simp [List.lookup]
          · unfold FS.lstat
            rw [lookup_append_of_none _ _ oldname
              (lookup_filter_none fs _ oldname (by intro v; simp))]
            have hb : (oldname == newname) = false := by
              rw [beq_eq_false_iff_ne]
              exact hne
            simp [List.lookup, hb]

/-! ## Failed uploads and the storage move -/

/-- C5, as amended. If `Upload` returns an error then the table holds exactly
the records it held before. If the error is not `ErrInRepo`, that is, the
failure came before the insert, then whatever was at `data/tmp/<tempRef>` is
still there, unchanged. If the error is `ErrInRepo`, the insert was rejected
after the move and the move is not undone: the node that was staged at
`data/tmp/<tempRef>`, which is not a directory, sits at the storage path, and
nothing is left at `data/tmp/<tempRef>`. -/
theorem Upload_error_keeps_table (w w1 : World) (now : Time) (uuid name : String) (size : Int)
    (contentType : String) (e : Err)
    (h : FileService.Upload w now uuid name size contentType = (.error e, w1)) :
    w1.db = w.db ∧
    (e ≠ .ErrInRepo → ∀ n, w.fs.lstat (filepathJoin "data/tmp" uuid) = some n →
      w1.fs.lstat (filepathJoin "data/tmp" uuid) = some n) ∧
    (e = .ErrInRepo → ∃ n, w.fs.lstat (filepathJoin "data/tmp" uuid) = some n ∧ n ≠ .dir ∧
      w1.fs.lstat (filepathJoin "data/storage" (uuid ++ ".dat")) = some n ∧
      w1.fs.lstat (filepathJoin "data/tmp" uuid) = none) := by
  obtain ⟨hdb, _, hcase⟩ := Upload_error_inv w w1 now uuid name size contentType e h
  refine ⟨hdb, ?_, ?_⟩
  · intro hne n hn
    have hkeep := MkdirAllRec_lstat_old
      (filepathJoin "data/storage" (uuid ++ ".dat") ::
        parentsOf (filepathJoin "data/storage" (uuid ++ ".dat")))
      w.fs (filepathJoin "data/tmp" uuid) n hn
    rcases hcase with ⟨en, hmk, _⟩ | ⟨hmk, _, _⟩ | ⟨_, _, _, _, he⟩
    · unfold MkdirAll at hmk
      rw [hmk] at hkeep
      exact hkeep
    · unfold MkdirAll at hmk
      rw [hmk] at hkeep
      exact hkeep
    · exact absurd he hne
  · intro he
    rcases hcase with ⟨en, _, he1⟩ | ⟨_, _, he1⟩ | ⟨fs1, hmk, hrn, _, _⟩
    · rw [he] at he1
      cases he1
    · rw [he] at he1
      cases he1
    · have hmk1 : MkdirAllRec (filepathJoin "data/storage" (uuid ++ ".dat") ::
          parentsOf (filepathJoin "data/storage" (uuid ++ ".dat"))) w.fs = (none, fs1) := hmk
      have hsome : ∃ m, fs1.lstat (filepathJoin "data/storage" (uuid ++ ".dat")) = some m := by
        rcases MkdirAllRec_target _ _ w.fs fs1 hmk1 with hd | ⟨t, ht⟩
        · exact ⟨_, hd⟩
        · have hk := MkdirAllRec_lstat_old
            (filepathJoin "data/storage" (uuid ++ ".dat") ::
              parentsOf (filepathJoin "data/storage" (uuid ++ ".dat")))
            w.fs _ _ ht
          rw [hmk1] at hk
          exact ⟨_, hk⟩
      obtain ⟨m, hm⟩ := hsome
      obtain ⟨n, hn, hnd, hnew, hold⟩ :=
        Rename_ok_moved fs1 w1.fs _ _ m hrn (tmp_ne_storage uuid) hm
      refine ⟨n, ?_, hnd, hnew, hold⟩
      have hback := MkdirAllRec_lstat_back
        (filepathJoin "data/storage" (uuid ++ ".dat") ::
          parentsOf (filepathJoin "data/storage" (uuid ++ ".dat")))
        w.fs (filepathJoin "data/tmp" uuid) n (by rw [hmk1]; exact hn)
      rcases hback with hb | hb
      · exact hb
      · exact absurd hb hnd

/-- Witness of C5 as amended: the upload of `tmp-a` in `plainWorld` fails
with `ErrInService`; the table is still empty and the staged file is still
in `data/tmp`. The upload of `tmp-b` in `takenWorld` fails with `ErrInRepo`;
the staged file sits at the storage path and has left `data/tmp`. -/
theorem Upload_error_keeps_table_witness :
    (FileService.Upload plainWorld 0 "tmp-a" "report.pdf" 2048 "application/pdf").1
      = .error .ErrInService ∧
    (FileService.Upload plainWorld 0 "tmp-a" "report.pdf" 2048 "application/pdf").2.db
      = plainWorld.db ∧
    (FileService.Upload plainWorld 0 "tmp-a" "report.pdf" 2048 "application/pdf").2.fs.lstat
      (filepathJoin "data/tmp" "tmp-a") = some (.file [37, 80, 68, 70]) ∧
    (FileService.Upload takenWorld 1 "tmp-b" "cat.gif" 3 "image/gif").1 = .error .ErrInRepo ∧
    ∃ n, takenWorld.fs.lstat (filepathJoin "data/tmp" "tmp-b") = some n ∧ n ≠ .dir ∧
      (FileService.Upload takenWorld 1 "tmp-b" "cat.gif" 3 "image/gif").2.fs.lstat
        (filepathJoin "data/storage" ("tmp-b" ++ ".dat")) = some n ∧
      (FileService.Upload takenWorld 1 "tmp-b" "cat.gif" 3 "image/gif").2.fs.lstat
        (filepathJoin "data/tmp" "tmp-b") = none :=
  ⟨by decide,
   (Upload_error_keeps_table plainWorld _ 0 "tmp-a" "report.pdf" 2048 "application/pdf"
      .ErrInService (Prod.ext (by decide) rfl)).1,
   (Upload_error_keeps_table plainWorld _ 0 "tmp-a" "report.pdf" 2048 "application/pdf"
      .ErrInService (Prod.ext (by decide) rfl)).2.1 (by decide) _ (by decide),
   by decide,
   (Upload_error_keeps_table takenWorld _ 1 "tmp-b" "cat.gif" 3 "image/gif"
      .ErrInRepo (Prod.ext (by decide) rfl)).2.2 rfl⟩

/-- C5, the claim as stated fails. In `takenWorld` the upload of `tmp-b`
returns an error (`ErrInRepo`, the generated identifier being taken), yet the
staged file has left `data/tmp/tmp-b` and a regular file with its bytes, which
was not there before, sits in the storage area at `data/storage/tmp-b.dat`. -/
theorem Upload_error_after_move :
    takenWorld.fs.lstat "data/tmp/tmp-b" = some (.file [71, 73, 70]) ∧
    takenWorld.fs.lstat "data/storage/tmp-b.dat" ≠ some (.file [71, 73, 70]) ∧
    (FileService.Upload takenWorld 1 "tmp-b" "cat.gif" 3 "image/gif").1 = .error .ErrInRepo ∧
    (FileService.Upload takenWorld 1 "tmp-b" "cat.gif" 3 "image/gif").2.fs.lstat
      "data/tmp/tmp-b" = none ∧
    (FileService.Upload takenWorld 1 "tmp-b" "cat.gif" 3 "image/gif").2.fs.lstat
      "data/storage/tmp-b.dat" = some (.file [71, 73, 70]) := by
  decide

/-- C6, what the code does. Whenever the storage path
`data/storage/<tempRef>.dat` is not a symbolic link beforehand, `Upload`
fails and the table is unchanged: either `os.MkdirAll` fails, or it leaves a
directory at the storage path, `os.Rename` onto that directory is refused and
`Upload` returns `ErrInService`. -/
theorem Upload_move_onto_directory (w : World) (now : Time) (uuid name : String) (size : Int)
    (contentType : String)
    (hlink : ∀ t, w.fs.lstat (filepathJoin "data/storage" (uuid ++ ".dat")) ≠ some (.symlink t)) :
    (FileService.Upload w now uuid name size contentType).2.db = w.db ∧
    ((∃ en, (FileService.Upload w now uuid name size contentType).1 = .error (.pathError en)) ∨
     ((FileService.Upload w now uuid name size contentType).1 = .error .ErrInService ∧
      (FileService.Upload w now uuid name size contentType).2.fs.lstat
        (filepathJoin "data/storage" (uuid ++ ".dat")) = some .dir)) := by
  cases h : FileService.Upload w now uuid name size contentType with
  | mk res w1 =>
    cases res with
    | ok id =>
      obtain ⟨fs1, fs2, hmk, hrn, _⟩ := Upload_ok_inv w w1 now uuid name size contentType id h
      rcases MkdirAllRec_target _ _ w.fs fs1 hmk with hd | ⟨t, ht⟩
      · exact absurd hd (Rename_ok_not_dir fs1 fs2 _ _ hrn)
      · exact absurd ht (hlink t)
    | error e =>
      obtain ⟨hdb, _, hcase⟩ := Upload_error_inv w w1 now uuid name size contentType e h
      refine ⟨hdb, ?_⟩
      rcases hcase with ⟨en, _, he⟩ | ⟨hmk, _, he⟩ | ⟨fs1, hmk, hrn, _, _⟩
      · exact Or.inl ⟨en, by rw [he]⟩
      · refine Or.inr ⟨by rw [he], ?_⟩
        rcases MkdirAllRec_target _ _ w.fs w1.fs hmk with hd | ⟨t, ht⟩
        · exact hd
        · exact absurd ht (hlink t)
      · rcases MkdirAllRec_target _ _ w.fs fs1 hmk with hd | ⟨t, ht⟩
        · exact absurd hd (Rename_ok_not_dir fs1 w1.fs _ _ hrn)
        · exact absurd ht (hlink t)

/-- C6 at the failing input. In `plainWorld` the staged file
`data/tmp/tmp-a` exists and the empty table would accept the insert; `Upload`
returns `ErrInService`, no record is inserted, `data/storage/tmp-a.dat` is a
directory and the staged bytes are still at `data/tmp/tmp-a`. -/
theorem Upload_move_onto_directory_witness :
    plainWorld.fs.lstat "data/tmp/tmp-a" = some (.file [37, 80, 68, 70]) ∧
    filepathJoin "data/storage" ("tmp-a" ++ ".dat") = "data/storage/tmp-a.dat" ∧
    plainWorld.fs.lstat "data/storage/tmp-a.dat" = none ∧
    (FileRepo.Insert plainWorld.db
      { ID := "aaaaa", OriginalName := "report.pdf", StoragePath := "data/storage/tmp-a.dat"
        Size := 2048, ContentType := "application/pdf", CreatedAt := 0 }).isOk = true ∧
    (FileService.Upload plainWorld 0 "tmp-a" "report.pdf" 2048 "application/pdf").1
      = .error .ErrInService ∧
    (FileService.Upload plainWorld 0 "tmp-a" "report.pdf" 2048 "application/pdf").2.fs.lstat
      "data/storage/tmp-a.dat" = some .dir ∧
    (FileService.Upload plainWorld 0 "tmp-a" "report.pdf" 2048 "application/pdf").2.fs.lstat
      "data/tmp/tmp-a" = some (.file [37, 80, 68, 70]) ∧
    (FileService.Upload plainWorld 0 "tmp-a" "report.pdf" 2048 "application/pdf").2.db = [] :=
  ⟨by decide, by decide, by decide, by decide, by decide, by decide, by decide,
   (Upload_move_onto_directory plainWorld 0 "tmp-a" "report.pdf" 2048 "application/pdf"
      (by
        intro t
        rw [show plainWorld.fs.lstat (filepathJoin "data/storage" ("tmp-a" ++ ".dat")) = none
          from by decide]
        exact fun hc => Option.noConfusion hc)).1⟩

/-! ## The sweep -/

theorem eq_of_mem_same_id (db : DB) (hu : db.ids.Nodup) (x y : Row)
    (hx : x ∈ db) (hy : y ∈ db) (h : x.id = y.id) : x = y :=
  List.inj_on_of_nodup_map hu hx hy h

/-- C7, as amended. For every directory tree, table, local time zone and
sweep: after `FileRepo.ClearExpired` has returned without a store error, a
record whose `expired_at` is written with the offset from UTC that local time
has at `T`, the clock reading at which the `DELETE` is evaluated, is still in
the table if and only if it was there and its `expired_at` is not before `T`
cut down to the whole second; put differently, of these records the ones
removed are those whose `expired_at` falls in an earlier second than `T`.
Such a record that is purged from a table with pairwise distinct identifiers
is reported by `FileRepo.Get` as not found. The outcome and the table after
the sweep do not depend on the directory tree, so a backing file whose
removal fails does not stop the sweep. -/
theorem ClearExpired_purges_by_second (fs : FS) (db : DB) (zone : Location)
    (fault : SweepFault) (tSelect tDelete : Time)
    (hok : (FileRepo.ClearExpired fs db zone fault tSelect tDelete).1 = none) :
    (∀ r : Row, r.expired_off = zone.offsetAt tDelete →
      (r ∈ (FileRepo.ClearExpired fs db zone fault tSelect tDelete).2.2 ↔
        r ∈ db ∧ ¬ r.expired_at < Time.wholeSecond tDelete)) ∧
    (∀ r : Row, r.expired_at < Time.wholeSecond tDelete ↔
      Time.Unix r.expired_at < Time.Unix tDelete) ∧
    (db.ids.Nodup → ∀ r ∈ db, r.expired_off = zone.offsetAt tDelete →
      r.expired_at < Time.wholeSecond tDelete →
      ∀ now, FileRepo.Get (FileRepo.ClearExpired fs db zone fault tSelect tDelete).2.2 now r.id
        = .error .ErrNotFound) ∧
    (∀ fs1 : FS, (FileRepo.ClearExpired fs1 db zone fault tSelect tDelete).1 = none ∧
      (FileRepo.ClearExpired fs1 db zone fault tSelect tDelete).2.2
        = (FileRepo.ClearExpired fs db zone fault tSelect tDelete).2.2) := by
  have hdb := ClearExpired_ok_db fs db zone fault tSelect tDelete hok
  have hmem : ∀ r : Row, r.expired_off = zone.offsetAt tDelete →
      (r ∈ (FileRepo.ClearExpired fs db zone fault tSelect tDelete).2.2 ↔
        r ∈ db ∧ ¬ r.expired_at < Time.wholeSecond tDelete) := by
    intro r hoff
    rw [hdb, List.mem_filter, ← expiredAt_same_offset zone tDelete r hoff]
    simp
  refine ⟨hmem, fun r : Row => lt_wholeSecond_iff r.expired_at tDelete, ?_, ?_⟩
  · intro hu r hr hoff hexp now
    rw [Get_notFound_iff, mem_ids_iff]
    rintro ⟨x, hx, hid⟩
    have hxdb : x ∈ db := by
      rw [hdb, List.mem_filter] at hx
      exact hx.1
    have hxr : x = r := eq_of_mem_same_id db hu x r hxdb hr hid
    subst hxr
    exact ((hmem x hoff).mp hx).2 hexp
  · intro fs1
    obtain ⟨h1, h2⟩ := ClearExpired_tree_free fs fs1 db zone fault tSelect tDelete
    exact ⟨h1.trans hok, h2⟩

/-- Witness of C7 as amended: the row of `sampleFile` (`expired_at = 48h`,
stamped in UTC) is purged by a sweep one second later in a process whose
local time is UTC, and is then not found. -/
theorem ClearExpired_purges_by_second_witness :
    (FileRepo.ClearExpired plainTree [sampleRow] utc .none (48 * hour + second)
      (48 * hour + second)).1 = none ∧
    (DB.ids [sampleRow]).Nodup ∧ sampleRow ∈ [sampleRow] ∧
    sampleRow.expired_off = utc.offsetAt (48 * hour + second) ∧
    sampleRow.expired_at < Time.wholeSecond (48 * hour + second) ∧
    FileRepo.Get
      (FileRepo.ClearExpired plainTree [sampleRow] utc .none (48 * hour + second)
        (48 * hour + second)).2.2
      (48 * hour + second) sampleRow.id = .error .ErrNotFound :=
  ⟨by decide, by decide, by decide, by decide, by decide,
   (ClearExpired_purges_by_second plainTree [sampleRow] utc .none (48 * hour + second)
      (48 * hour + second) (by decide)).2.2.1 (by decide) sampleRow (by decide) (by decide)
      (by decide) (48 * hour + second)⟩

/-- C7, the claim as stated fails, in both directions. The `expired_at` of
`lateRow` is `48h` and `0.2s`; a sweep at `T = 48h` and `0.7s`, so
`expired_at < T`, returns without error and leaves the row in the table, and
`FileRepo.Get` reports it as expired, not as not found. And in a process
whose local time is Tokyo's, a sweep at `T = 46h` returns without error and
removes the row of `sampleFile`, stamped in UTC, whose `expired_at = 48h` is
not before `T`. Likewise, in a process whose clocks fall back by an hour at
`50h`, a sweep at `T = 49h30m` removes `fallBackRow`, stamped in local time,
whose `expired_at = 50h10m` is not before `T`. -/
theorem ClearExpired_keeps_row_of_same_second :
    lateRow.expired_at = 48 * hour + 200000000 ∧
    lateRow.expired_at < 48 * hour + 700000000 ∧
    (FileRepo.ClearExpired [] [lateRow] utc .none (48 * hour + 700000000)
      (48 * hour + 700000000)).1 = none ∧
    lateRow ∈
      (FileRepo.ClearExpired [] [lateRow] utc .none (48 * hour + 700000000)
        (48 * hour + 700000000)).2.2 ∧
    FileRepo.Get
      (FileRepo.ClearExpired [] [lateRow] utc .none (48 * hour + 700000000)
        (48 * hour + 700000000)).2.2
      (48 * hour + 700000000) lateRow.id = .error .ErrExpired ∧
    sampleRow.expired_at = 48 * hour ∧ ¬ sampleRow.expired_at < 46 * hour ∧
    (FileRepo.ClearExpired [] [sampleRow] tokyo .none (46 * hour) (46 * hour)).1 = none ∧
    sampleRow ∉
      (FileRepo.ClearExpired [] [sampleRow] tokyo .none (46 * hour) (46 * hour)).2.2 ∧
    fallBackRow.expired_at = 50 * hour + 600 * second ∧
    fallBackRow.expired_off = 3600 ∧
    ¬ fallBackRow.expired_at < 49 * hour + 1800 * second ∧
    (FileRepo.ClearExpired [] [fallBackRow] fallBackZone .none (49 * hour + 1800 * second)
      (49 * hour + 1800 * second)).1 = none ∧
    fallBackRow ∉
      (FileRepo.ClearExpired [] [fallBackRow] fallBackZone .none (49 * hour + 1800 * second)
        (49 * hour + 1800 * second)).2.2 := by
  decide

/-! ## Delete and lookups of absent identifiers -/

theorem id_not_mem_delete (db : DB) (id : String) :
    id ∉ DB.ids (db.filter (fun r => !(r.id == id))) := by
  rw [mem_ids_iff]
  rintro ⟨r, hr, hid⟩
  rw [List.mem_filter] at hr
  simp [hid] at hr

theorem mem_delete_iff (db : DB) (id : String) (r : Row) (h : r.id ≠ id) :
    r ∈ db.filter (fun x => !(x.id == id)) ↔ r ∈ db := by
  rw [List.mem_filter]
  simp [h]

theorem find_delete_other (db : DB) (id id1 : String) (h : id1 ≠ id) :
    (db.filter (fun r => !(r.id == id))).find? (fun r => r.id == id1)
      = db.find? (fun r => r.id == id1) := by
  induction db with
  | nil => rfl
  | cons x xs ih =>
    by_cases hx : x.id = id
    · have hne : (x.id == id1) = false := by
        simp only [beq_eq_false_iff_ne, ne_eq]
        intro hc
        exact h (hc ▸ hx)
      rw [List.filter_cons_of_neg (by simp [hx]), List.find?_cons, hne]
      exact ih
    · rw [List.filter_cons_of_pos (by simp [hx]), List.find?_cons, List.find?_cons, ih]

theorem delete_absent (db : DB) (id : String) (h : id ∉ db.ids) :
    db.filter (fun r => !(r.id == id)) = db := by
  rw [List.filter_eq_self]
  intro r hr
  have hne : r.id ≠ id := fun hc => h ((mem_ids_iff db id).mpr ⟨r, hr, hc⟩)
  simp [hne]

/-- C11. For every table and every identifier, `FileRepo.Delete id` returns
success, whether or not a record with that identifier is stored. Afterwards
`FileRepo.Get id` returns `ErrNotFound`, and every other record is unchanged:
a row with another identifier is in the table after the call if and only if
it was there before, and `FileRepo.Get` answers for every other identifier as
it did before. Deleting an identifier that is not stored leaves the table
unchanged, so deleting a second time succeeds again and yields the same table
as deleting once. -/
theorem Delete_idempotent (db : DB) (id : String) :
    ∃ db1 : DB, FileRepo.Delete db id = .ok db1 ∧
      (∀ now, FileRepo.Get db1 now id = .error .ErrNotFound) ∧
      (∀ r : Row, r.id ≠ id → (r ∈ db1 ↔ r ∈ db)) ∧
      (∀ (id1 : String) (now : Time), id1 ≠ id →
        FileRepo.Get db1 now id1 = FileRepo.Get db now id1) ∧
      (id ∉ db.ids → db1 = db) ∧
      FileRepo.Delete db1 id = .ok db1 := by
  refine ⟨db.filter (fun r => !(r.id == id)), rfl, ?_, ?_, ?_, ?_, ?_⟩
  · intro now
    exact (Get_notFound_iff _ now id).mpr (id_not_mem_delete db id)
  · intro r hr
    exact mem_delete_iff db id r hr
  · intro id1 now hne
    unfold FileRepo.Get
    rw [find_delete_other db id id1 hne]
  · exact delete_absent db id
  · show Except.ok _ = Except.ok _
    rw [delete_absent _ id (id_not_mem_delete db id)]

/-- C11 on the repository test `TestFileRepo_Delete` and beyond: a stored
record is deleted and is then not found; deleting it again, or deleting an
identifier that was never stored, succeeds and changes nothing. -/
theorem Delete_idempotent_witness :
    FileRepo.Delete [sampleRow] "aaaaa" = .ok [] ∧
    FileRepo.Get [] 0 "aaaaa" = .error .ErrNotFound ∧
    FileRepo.Delete [] "aaaaa" = .ok [] ∧
    FileRepo.Delete [sampleRow] "zzzzz" = .ok [sampleRow] ∧
    ∃ db1 : DB, FileRepo.Delete [sampleRow] "zzzzz" = .ok db1 ∧
      (∀ now, FileRepo.Get db1 now "zzzzz" = .error .ErrNotFound) ∧
      (∀ r : Row, r.id ≠ "zzzzz" → (r ∈ db1 ↔ r ∈ [sampleRow])) ∧
      (∀ (id1 : String) (now : Time), id1 ≠ "zzzzz" →
        FileRepo.Get db1 now id1 = FileRepo.Get [sampleRow] now id1) ∧
      ("zzzzz" ∉ DB.ids [sampleRow] → db1 = [sampleRow]) ∧
      FileRepo.Delete db1 "zzzzz" = .ok db1 :=
  ⟨by decide, by decide, by decide, by decide, Delete_idempotent [sampleRow] "zzzzz"⟩

/-- C12. For every table and every identifier for which no record is stored,
`FileRepo.Get id` returns `ErrNotFound`, and `FileService.Get id` returns that
same `ErrNotFound`, not `ErrInRepo`, and no record. -/
theorem Get_absent_is_ErrNotFound (w : World) (now : Time) (id : String)
    (h : id ∉ w.db.ids) :
    FileRepo.Get w.db now id = .error .ErrNotFound ∧
    FileService.Get w now id = .error .ErrNotFound ∧
    FileService.Get w now id ≠ .error .ErrInRepo ∧
    (∀ f : File, FileService.Get w now id ≠ .ok f) := by
  have hrepo : FileRepo.Get w.db now id = .error .ErrNotFound :=
    (Get_notFound_iff w.db now id).mpr h
  have hsvc : FileService.Get w now id = .error .ErrNotFound := by
    unfold FileService.Get
    rw [hrepo]
    rfl
  refine ⟨hrepo, hsvc, ?_, ?_⟩
  · rw [hsvc]
    decide
  · intro f
    rw [hsvc]
    exact fun hc => Except.noConfusion hc

/-- Witness of C12, the repository test `TestFileRepo_Get_NotFound`: an
identifier that is not in the table, here one that holds another record. -/
theorem Get_absent_is_ErrNotFound_witness :
    "non-existent-id" ∉ DB.ids [sampleRow] ∧
    FileRepo.Get [sampleRow] 0 "non-existent-id" = .error .ErrNotFound ∧
    FileService.Get { fs := [], db := [sampleRow], rand := zeroRand } 0 "non-existent-id"
      = .error .ErrNotFound :=
  ⟨by decide,
   (Get_absent_is_ErrNotFound { fs := [], db := [sampleRow], rand := zeroRand } 0
      "non-existent-id" (by decide)).1,
   (Get_absent_is_ErrNotFound { fs := [], db := [sampleRow], rand := zeroRand } 0
      "non-existent-id" (by decide)).2.1⟩

end Registry
